import Mathlib

/-!
# Seed search for the Wii Play billiards break (RackAttack / PerfectBreak)

A shallow embedding of `Source/Core/RackAttack.h` and `Source/Core/PerfectBreak.h`.

* 32-bit unsigned integers are naturals reduced modulo `2 ^ 32`.
* A C++ `float` is represented by its IEEE-754 binary32 bit pattern (a natural
  below `2 ^ 32`); arithmetic on floats is the IEEE-754 arithmetic with the default
  rounding (to nearest, ties to even), every operation rounded on its own.
  The headers assert `std::numeric_limits<float>::is_iec559`.
* Emulated memory is a function from addresses to bytes.
-/

/-! ## IEEE-754 binary32 -/

namespace F32

/-- Sign bit of a binary32 pattern. -/
def sign (b : Nat) : Nat := b / 2 ^ 31 % 2

/-- Biased exponent field (8 bits). -/
def expo (b : Nat) : Nat := b / 2 ^ 23 % 256

/-- Fraction field (23 bits). -/
def mant (b : Nat) : Nat := b % 2 ^ 23

/-- Not-a-number patterns. -/
def isNaN (b : Nat) : Bool := expo b == 255 && mant b != 0

/-- Infinite patterns. -/
def isInf (b : Nat) : Bool := expo b == 255 && mant b == 0

/-- Finite patterns: neither infinite nor NaN. -/
def isFinite (b : Nat) : Bool := expo b != 255

/-- Magnitude of a finite pattern, counted in units of `2 ^ (-149)` (the smallest
subnormal): every finite binary32 value is an integer number of such units. -/
def mag (b : Nat) : Nat :=
  if expo b = 0 then mant b else (2 ^ 23 + mant b) * 2 ^ (expo b - 1)

/-- Value of a finite pattern as a rational number. -/
def toRat (b : Nat) : ℚ :=
  (if sign b = 1 then -1 else 1) * (mag b : ℚ) / 2 ^ 149

/-- Canonical quiet NaN. The payload of a NaN result is not modelled. -/
def qNaN : Nat := 0x7fc00000

/-- Magnitude bits of infinity. -/
def infBits : Nat := 0x7f800000

/-- Nearest integer to `n / d`, ties to even. -/
def rne (n d : Nat) : Nat :=
  if 2 * (n % d) < d then n / d
  else if d < 2 * (n % d) then n / d + 1
  else if n / d % 2 = 0 then n / d else n / d + 1

/-- Base-2 logarithm rounded down, by at most `fuel` halvings. -/
def log2Fuel : Nat → Nat → Nat
  | 0, _ => 0
  | fuel + 1, n => if n < 2 then 0 else log2Fuel fuel (n / 2) + 1

/-- Base-2 logarithm rounded down (0 at 0): the position of the leading bit. -/
def log2 (n : Nat) : Nat := log2Fuel n n

/-- Binade shift of the positive quantity `n / d` (in units of `2 ^ (-149)`): the
rounded significand is a multiple of `2 ^ shift`. -/
def shift (n d : Nat) : Nat := log2 (n / d) - 23

/-- Rounded significand of `n / d` units, to be scaled by `2 ^ shift n d`. -/
def sig (n d : Nat) : Nat := rne n (d * 2 ^ shift n d)

/-- The rounded magnitude of `n / d` units, itself in units of `2 ^ (-149)`. -/
def rval (n d : Nat) : Nat := sig n d * 2 ^ shift n d

/-- Magnitude bits (31 bits) of the binary32 nearest to `n / d` units of `2 ^ (-149)`,
ties to even, overflowing to infinity. -/
def roundMag (n d : Nat) : Nat :=
  min (shift n d * 2 ^ 23 + sig n d) infBits

/-- Assemble a sign bit and 31 magnitude bits. -/
def pack (s m : Nat) : Nat := s * 2 ^ 31 + m

/-- Flip the sign bit (unary minus). -/
def neg (b : Nat) : Nat := pack (1 - sign b) (b % 2 ^ 31)

/-- The float nearest to the non-negative decimal fraction `n / d`: conversion of a
floating literal such as `0.28785f`. -/
def ofFrac (n d : Nat) : Nat := roundMag (n * 2 ^ 149) d

/-- Conversion `static_cast<float>(k)` of an unsigned integer. -/
def ofNat (k : Nat) : Nat := roundMag (k * 2 ^ 149) 1

/-- Float multiplication `a * b`. -/
def mul (a b : Nat) : Nat :=
  if isNaN a || isNaN b then qNaN
  else if isInf a || isInf b then
    (if (!isInf a && mag a == 0) || (!isInf b && mag b == 0) then qNaN
     else pack ((sign a + sign b) % 2) infBits)
  else pack ((sign a + sign b) % 2) (roundMag (mag a * mag b) (2 ^ 149))

/-- Float division `a / b`. -/
def div (a b : Nat) : Nat :=
  if isNaN a || isNaN b then qNaN
  else if isInf a then (if isInf b then qNaN else pack ((sign a + sign b) % 2) infBits)
  else if isInf b then pack ((sign a + sign b) % 2) 0
  else if mag b == 0 then
    (if mag a == 0 then qNaN else pack ((sign a + sign b) % 2) infBits)
  else pack ((sign a + sign b) % 2) (roundMag (mag a * 2 ^ 149) (mag b))

/-- Signed number of units of a finite pattern. -/
def toInt (b : Nat) : Int := if sign b = 1 then -(mag b : Int) else (mag b : Int)

/-- Float addition `a + b`. -/
def add (a b : Nat) : Nat :=
  if isNaN a || isNaN b then qNaN
  else if isInf a then (if isInf b && sign a != sign b then qNaN else a)
  else if isInf b then b
  else if toInt a + toInt b = 0 then
    (if sign a = 1 ∧ sign b = 1 then pack 1 0 else 0)
  else if toInt a + toInt b < 0 then pack 1 (roundMag (toInt a + toInt b).natAbs 1)
  else pack 0 (roundMag (toInt a + toInt b).natAbs 1)

/-- Float subtraction `a - b`. -/
def sub (a b : Nat) : Nat := add a (neg b)

/-- Float comparison `a == b`: false on NaN, and the two zeros are equal. -/
def eq (a b : Nat) : Bool :=
  !isNaN a && !isNaN b && (a == b || (mag a == 0 && mag b == 0 && !isInf a && !isInf b))

end F32

/-! ## Balls and the rack generator (both headers define them identically) -/

/-- The class `Ball`: three floats, kept as bit patterns. -/
structure Ball where
  x_ : Nat
  y_ : Nat
  z_ : Nat
deriving DecidableEq

namespace Ball

def CUE : Ball := ⟨0xc2480000, 0x40383958, 0x00000000⟩
def ONE : Ball := ⟨0x42480000, 0x40383958, 0x00000000⟩
def TWO : Ball := ⟨0x42920e56, 0x40383958, 0x00000000⟩
def THREE : Ball := ⟨0x42760e56, 0x40383958, 0x40b83958⟩
def FOUR : Ball := ⟨0x42760e56, 0x40383958, 0xc0b83958⟩
def FIVE : Ball := ⟨0x425f072b, 0x40383958, 0x40383958⟩
def SIX : Ball := ⟨0x425f072b, 0x40383958, 0xc0383958⟩
def SEVEN : Ball := ⟨0x42868ac0, 0x40383958, 0x40383958⟩
def EIGHT : Ball := ⟨0x42868ac0, 0x40383958, 0xc0383958⟩
def NINE : Ball := ⟨0x42760e56, 0x40383958, 0x00000000⟩

/-- The defaulted `operator==`: memberwise comparison of the three floats. -/
def beq (a b : Ball) : Bool := F32.eq a.x_ b.x_ && F32.eq a.y_ b.y_ && F32.eq a.z_ b.z_

/-- The accessors `x_iec559`, `y_iec559`, `z_iec559` (a bit cast). -/
def x_iec559 (b : Ball) : Nat := b.x_
def y_iec559 (b : Ball) : Nat := b.y_
def z_iec559 (b : Ball) : Nat := b.z_

/-- The method `apply_offset`: `x_ += x; z_ += z;`. -/
def apply_offset (b : Ball) (x z : Nat) : Ball :=
  { b with x_ := F32.add b.x_ x, z_ := F32.add b.z_ z }

end Ball

/-- The class `WiiPlayRandomFloat`: a 32-bit state. -/
structure WiiPlayRandomFloat where
  seed_ : Nat
deriving DecidableEq

namespace WiiPlayRandomFloat

/-- The constructor, taking a `uint32_t`. -/
def new (seed : Nat) : WiiPlayRandomFloat := ⟨seed % 2 ^ 32⟩

/-- The 16-bit integer that `random` converts to a float: `(seed_ >> 16) & 0xffff`
of the advanced state. -/
def bits16 (g : WiiPlayRandomFloat) : Nat :=
  (((g.seed_ * 0x10DCD + 1) % 2 ^ 32) >>> 16) &&& 0xffff

/-- The method `random`: advances the state and returns the generator with the draw. -/
def random (g : WiiPlayRandomFloat) : WiiPlayRandomFloat × Nat :=
  let seed_ := (g.seed_ * 0x10DCD + 1) % 2 ^ 32
  (⟨seed_⟩, F32.div (F32.ofNat ((seed_ >>> 16) &&& 0xffff)) (F32.ofNat 0x10000))

/-- The generator after `k` calls of `random`. -/
def after (g : WiiPlayRandomFloat) : Nat → WiiPlayRandomFloat
  | 0 => g
  | k + 1 => (random (after g k)).1

/-- The value returned by the `k`-th call of `random`, counting from 1. -/
def draw (g : WiiPlayRandomFloat) (k : Nat) : Nat := (random (after g (k - 1))).2

end WiiPlayRandomFloat

/-- The literal `0.28785f`. -/
def scaleLit : Nat := F32.ofFrac 28785 100000

/-- The literal `0.143925f`. -/
def shiftLit : Nat := F32.ofFrac 143925 1000000

/-- The expression `(d * 0.28785f) - 0.143925f` for a draw `d`. -/
def offsetOf (d : Nat) : Nat := F32.sub (F32.mul d scaleLit) shiftLit

/-- The class `WiiPlayRandomRack`. -/
structure WiiPlayRandomRack where
  rng_ : WiiPlayRandomFloat
  balls_ : List Ball
deriving DecidableEq

namespace WiiPlayRandomRack

/-- The initial value of `balls_`. -/
def initial : List Ball :=
  [Ball.CUE, Ball.ONE, Ball.TWO, Ball.THREE, Ball.FOUR,
   Ball.FIVE, Ball.SIX, Ball.SEVEN, Ball.EIGHT, Ball.NINE]

/-- The body of the constructor: `for (Ball& ball : balls_)`, threading `rng_`. -/
def loop : WiiPlayRandomFloat → List Ball → WiiPlayRandomFloat × List Ball
  | rng, [] => (rng, [])
  | rng, ball :: rest =>
    if Ball.beq ball Ball.CUE then
      ((loop rng rest).1, ball :: (loop rng rest).2)
    else
      let offset_x := offsetOf rng.random.2
      let offset_y := offsetOf rng.random.1.random.2
      ((loop rng.random.1.random.1 rest).1,
        ball.apply_offset offset_x offset_y :: (loop rng.random.1.random.1 rest).2)

/-- The constructor `WiiPlayRandomRack(uint32_t seed)`. -/
def new (seed : Nat) : WiiPlayRandomRack :=
  ⟨(loop (WiiPlayRandomFloat.new seed) initial).1, (loop (WiiPlayRandomFloat.new seed) initial).2⟩

/-- The method `GetBall`: `balls_.at(ball_number)`, which fails out of range. -/
def GetBall (r : WiiPlayRandomRack) (ball_number : Nat) : Option Ball := r.balls_.get? ball_number

/-- The method `GetBalls`. -/
def GetBalls (r : WiiPlayRandomRack) : List Ball := r.balls_

end WiiPlayRandomRack

/-! ## Emulated memory and the host interface -/

/-- Emulated memory: a byte at every address (read modulo 256). -/
abbrev Mem := Nat → Nat

/-- Modelled from the spec: `read_memory` of one byte, the emulator's
`MemoryManager::Read_U8`, whose definition is not in these headers. -/
def Read_U8 (memory : Mem) (address : Nat) : Nat := memory address % 256

/-- Modelled from the spec: `write_memory` of a 32-bit word, the emulator's
`MemoryManager::Write_U32`, whose definition is not in these headers. The emulated
machine is big-endian: the most significant byte goes to the lowest address. -/
def Write_U32 (memory : Mem) (var address : Nat) : Mem := fun p =>
  if p = address then var / 2 ^ 24 % 256
  else if p = address + 1 then var / 2 ^ 16 % 256
  else if p = address + 2 then var / 2 ^ 8 % 256
  else if p = address + 3 then var % 256
  else memory p

/-- Modelled from the spec: `read_memory(address, size)`, the emulator's
`MemoryManager::CopyFromEmu`, a raw copy of `size` bytes. -/
def CopyFromEmu (memory : Mem) (address size : Nat) : List Nat :=
  (List.range size).map (fun i => Read_U8 memory (address + i))

/-- Modelled from the spec: `write_memory(address, bytes)`, the emulator's
`MemoryManager::CopyToEmu`, a raw copy of the bytes of a buffer. -/
def CopyToEmu (memory : Mem) (address : Nat) (src : List Nat) : Mem := fun p =>
  if address ≤ p ∧ p < address + src.length then src.getD (p - address) 0 % 256 else memory p

/-- Emulated memory that is zero except for the byte at `0x91b4cf7b`, the sunk count
of ball ONE (a fixture for concrete runs). -/
def sunkOne (n : Nat) : Mem := fun a => if a = 0x91b4cf7b then n else 0

/-- The 32-bit object of the (little-endian) host whose four bytes are `bytes`. -/
def hostWord (bytes : List Nat) : Nat :=
  bytes.getD 0 0 + bytes.getD 1 0 * 2 ^ 8 + bytes.getD 2 0 * 2 ^ 16 + bytes.getD 3 0 * 2 ^ 24

/-- A raw copy of four emulated bytes into a 32-bit host object. -/
def copyWord (memory : Mem) (address : Nat) : Nat := hostWord (CopyFromEmu memory address 4)

/-- Conversion of a 32-bit unsigned value to `int` (two's complement). -/
def toInt32 (v : Nat) : Int :=
  if v % 2 ^ 32 < 2 ^ 31 then ((v % 2 ^ 32 : Nat) : Int) else ((v % 2 ^ 32 : Nat) : Int) - 2 ^ 32

/-- What a controller asks of the host, in program order. -/
inductive Effect where
  | Load (slot : Nat)
  | Save (slot : Nat)
  | SaveToBuffer
  | LoadFromBuffer
  | SetBreakpoint (address : Nat)
  | ThrottlerTempDisabled
  | EnableStepping (enable : Bool)
  | InitNotice
  | OSD (score : Int) (seed : Nat) (best : Int)
  | Log (sunk : List Nat) (score : Int) (seed : Nat)
deriving DecidableEq

/-- Result of one callback: the controller's new statics, emulated memory afterwards,
and the host requests made. -/
structure Step (σ : Type) where
  next : σ
  memory : Mem
  effects : List Effect

namespace Step

/-- The callback resolved a trial: it logged the sunk counts and the score. -/
def resolved {σ : Type} (s : Step σ) : Bool :=
  s.effects.any (fun e => match e with
    | Effect.Log _ _ _ => true
    | _ => false)

/-- The callback requested `State::Save(10)`. -/
def saved {σ : Type} (s : Step σ) : Bool := s.effects.contains (Effect.Save 10)

end Step

/-- Addresses of the position words (x; y and z follow at +4 and +8) of the ten balls,
CUE first. -/
def posAddr : List Nat :=
  [0x91B4C8BC, 0x91B4D07C, 0x91B4D7AC, 0x91B4DEDC, 0x91B4E60C,
   0x91B4ED3C, 0x91B4F46C, 0x91B4FB9C, 0x91B502CC, 0x91B509FC]

/-- Addresses of the sunk counts of the ten balls, CUE first. -/
def sunkAddr : List Nat :=
  [0x91B4C7BB, 0x91B4CF7B, 0x91B4D6AB, 0x91B4DDDB, 0x91B4E50B,
   0x91B4EC3B, 0x91B4F36B, 0x91B4FA9B, 0x91B501CB, 0x91B508FB]

/-- The three `Write_U32` calls that store a ball at its position words. A failed
`GetBall` would throw before any of them. -/
def writeBall (memory : Mem) (b : Option Ball) (address : Nat) : Mem :=
  match b with
  | some b =>
    Write_U32 (Write_U32 (Write_U32 memory b.x_iec559 address) b.y_iec559 (address + 4))
      b.z_iec559 (address + 8)
  | none => memory

/-- The block of 27 `Write_U32` calls shared by both controllers: balls 1 to 9 of the
rack, in order. -/
def writeRack (memory : Mem) (rack : WiiPlayRandomRack) : Mem :=
  let m1 := writeBall memory (rack.GetBall 1) 0x91B4D07C
  let m2 := writeBall m1 (rack.GetBall 2) 0x91B4D7AC
  let m3 := writeBall m2 (rack.GetBall 3) 0x91B4DEDC
  let m4 := writeBall m3 (rack.GetBall 4) 0x91B4E60C
  let m5 := writeBall m4 (rack.GetBall 5) 0x91B4ED3C
  let m6 := writeBall m5 (rack.GetBall 6) 0x91B4F46C
  let m7 := writeBall m6 (rack.GetBall 7) 0x91B4FB9C
  let m8 := writeBall m7 (rack.GetBall 8) 0x91B502CC
  writeBall m8 (rack.GetBall 9) 0x91B509FC

/-- Modelled from the spec: `read_memory` of a 32-bit word, the emulator's
`MemoryManager::Read_U32` (big-endian), the inverse of `Write_U32`. -/
def Read_U32 (memory : Mem) (address : Nat) : Nat :=
  Read_U8 memory address * 2 ^ 24 + Read_U8 memory (address + 1) * 2 ^ 16 +
    Read_U8 memory (address + 2) * 2 ^ 8 + Read_U8 memory (address + 3)

/-- The address lies in one of the 27 position words of balls ONE to NINE. -/
def inRackWords (a : Nat) : Bool := posAddr.tail.any (fun b => decide (b ≤ a ∧ a < b + 12))

/-- The address lies in the region that `RackAttack::Init` copies to `mem`. -/
def inRegion (a : Nat) : Bool := decide (0x91b4bf80 ≤ a ∧ a < 0x91b4bf80 + 0x6600)

/-! ## RackAttack: the poll-based controller -/

/-- One member of `BreakState`: a position and a sunk count, as 32-bit host objects. -/
structure BallState where
  x : Nat
  y : Nat
  z : Nat
  sunk : Nat
deriving DecidableEq

/-- The struct `BreakState` (160 bytes, no padding). -/
structure BreakState where
  CUE : BallState
  ONE : BallState
  TWO : BallState
  THREE : BallState
  FOUR : BallState
  FIVE : BallState
  SIX : BallState
  SEVEN : BallState
  EIGHT : BallState
  NINE : BallState
deriving DecidableEq

/-- The two `CopyFromEmu` calls that fill one member of `BreakState`. -/
def readBall (memory : Mem) (pos sunk : Nat) : BallState :=
  ⟨copyWord memory pos, copyWord memory (pos + 4), copyWord memory (pos + 8),
    copyWord memory sunk⟩

namespace BreakState

/-- The twenty `CopyFromEmu` calls at the head of `Update`. -/
def read (memory : Mem) : BreakState :=
  { CUE := readBall memory 0x91B4C8BC 0x91B4C7BB
    ONE := readBall memory 0x91B4D07C 0x91B4CF7B
    TWO := readBall memory 0x91B4D7AC 0x91B4D6AB
    THREE := readBall memory 0x91B4DEDC 0x91B4DDDB
    FOUR := readBall memory 0x91B4E60C 0x91B4E50B
    FIVE := readBall memory 0x91B4ED3C 0x91B4EC3B
    SIX := readBall memory 0x91B4F46C 0x91B4F36B
    SEVEN := readBall memory 0x91B4FB9C 0x91B4FA9B
    EIGHT := readBall memory 0x91B502CC 0x91B501CB
    NINE := readBall memory 0x91B509FC 0x91B508FB }

/-- The ten assignments `state.X.pos.y = 0.0f`. -/
def zeroY (s : BreakState) : BreakState :=
  { CUE := { s.CUE with y := 0 }
    ONE := { s.ONE with y := 0 }
    TWO := { s.TWO with y := 0 }
    THREE := { s.THREE with y := 0 }
    FOUR := { s.FOUR with y := 0 }
    FIVE := { s.FIVE with y := 0 }
    SIX := { s.SIX with y := 0 }
    SEVEN := { s.SEVEN with y := 0 }
    EIGHT := { s.EIGHT with y := 0 }
    NINE := { s.NINE with y := 0 } }

/-- The ten members in order, CUE first. -/
def balls (s : BreakState) : List BallState :=
  [s.CUE, s.ONE, s.TWO, s.THREE, s.FOUR, s.FIVE, s.SIX, s.SEVEN, s.EIGHT, s.NINE]

/-- The sunk counts logged on resolution: ONE to NINE. -/
def sunkList (s : BreakState) : List Nat :=
  [s.ONE.sunk, s.TWO.sunk, s.THREE.sunk, s.FOUR.sunk, s.FIVE.sunk, s.SIX.sunk,
   s.SEVEN.sunk, s.EIGHT.sunk, s.NINE.sunk]

/-- The initializer of `int score`: a sum of nine `uint32_t`, converted to `int`. -/
def score (s : BreakState) : Int :=
  toInt32 ((s.ONE.sunk + s.TWO.sunk + s.THREE.sunk + s.FOUR.sunk + s.FIVE.sunk + s.SIX.sunk +
    s.SEVEN.sunk + s.EIGHT.sunk + s.NINE.sunk) % 2 ^ 32)

/-- Two observations agree on the `x`, the `z` and the sunk count of every ball. -/
def sameXZSunk (s t : BreakState) : Prop :=
  ∀ i : Fin 10, (s.balls.getD i.val s.CUE).x = (t.balls.getD i.val t.CUE).x ∧
    (s.balls.getD i.val s.CUE).z = (t.balls.getD i.val t.CUE).z ∧
    (s.balls.getD i.val s.CUE).sunk = (t.balls.getD i.val t.CUE).sunk

instance (s t : BreakState) : Decidable (s.sameXZSunk t) := by
  unfold sameXZSunk; infer_instance

/-- All ten `y` members are `0.0f`. -/
def yZero (s : BreakState) : Prop := ∀ b ∈ s.balls, b.y = 0

/-- The zero-initialised static. -/
def zero : BreakState :=
  ⟨⟨0, 0, 0, 0⟩, ⟨0, 0, 0, 0⟩, ⟨0, 0, 0, 0⟩, ⟨0, 0, 0, 0⟩, ⟨0, 0, 0, 0⟩,
   ⟨0, 0, 0, 0⟩, ⟨0, 0, 0, 0⟩, ⟨0, 0, 0, 0⟩, ⟨0, 0, 0, 0⟩, ⟨0, 0, 0, 0⟩⟩

end BreakState

/-- The static data members of `RackAttack` (`save` is never used). -/
structure RackAttack where
  frame_number : Int
  frames_idle : Int
  seed : Nat
  best_score : Int
  best_seed : Int
  last_state : BreakState
  mem : List Nat

namespace RackAttack

/-- The statics before `Init`: zero-initialised. -/
def static : RackAttack := ⟨0, 0, 0, 0, 0, BreakState.zero, List.replicate 0x6600 0⟩

/-- The function `RackAttack::Init`. The argument `memory` is emulated memory as
`State::Load(3)` leaves it. -/
def Init (r : RackAttack) (memory : Mem) : Step RackAttack :=
  { next :=
      { r with
        seed := 0
        frame_number := 0
        frames_idle := 0
        best_score := 0
        best_seed := toInt32 0
        mem := CopyFromEmu memory 0x91b4bf80 0x6600 }
    memory := memory
    effects := [Effect.InitNotice, Effect.Load 3] }

/-- The value of `frames_idle` after the `memcmp` test of `Update`. -/
def idle (r : RackAttack) (state : BreakState) : Int :=
  if r.last_state = state then r.frames_idle + 1 else 0

/-- The function `RackAttack::Update`. The argument `memory` is emulated memory at the
time of the call. -/
def Update (r : RackAttack) (memory : Mem) : Step RackAttack :=
  let state := (BreakState.read memory).zeroY
  let frames_idle := idle r state
  if frames_idle > 3 then
    let score := state.score
    let best_score := if score > r.best_score then score else r.best_score
    { next :=
        { r with
          frames_idle := -1
          last_state := state
          best_score := best_score
          seed := (r.seed + 1) % 2 ^ 32 }
      memory := writeRack (CopyToEmu memory 0x91b4bf80 r.mem) (WiiPlayRandomRack.new r.seed)
      effects :=
        (if score > r.best_score then [Effect.Save 10] else []) ++
          [Effect.OSD score r.seed best_score, Effect.Log state.sunkList score r.seed] }
  else
    { next := { r with frames_idle := frames_idle, last_state := state }
      memory := memory
      effects := [] }

/-- The steps of successive calls of `Update`, the `i`-th one finding emulated memory
`ms[i]` (the emulator runs between two calls). -/
def trace : RackAttack → List Mem → List (Step RackAttack)
  | _, [] => []
  | r, m :: ms => Update r m :: trace (Update r m).next ms

/-- The statics after successive calls of `Update`. -/
def run : RackAttack → List Mem → RackAttack
  | r, [] => r
  | r, m :: ms => run (Update r m).next ms

/-- The normalised observation that `Update` compares with `last_state`. -/
def observe (memory : Mem) : BreakState := (BreakState.read memory).zeroY

end RackAttack

/-! ## PerfectBreak: the trap-based controller -/

/-- The static data members of `PerfectBreak`; of the save state held in `state` only
the image of emulated memory is kept. -/
structure PerfectBreak where
  state : Mem
  count : Nat
  best_seed : Nat
  best_score : Int

namespace PerfectBreak

/-- The statics as initialised at their definition. -/
def static : PerfectBreak := ⟨fun _ => 0, 0, 0, 0⟩

/-- The function `PerfectBreak::init`. The argument `memory` is emulated memory as
`State::Load(9)` leaves it. -/
def init (p : PerfectBreak) (memory : Mem) : Step PerfectBreak :=
  { next := { p with state := memory }
    memory := memory
    effects := [Effect.InitNotice, Effect.Load 9, Effect.SetBreakpoint 0x802c4afc,
      Effect.SaveToBuffer] }

/-- The sum `sunk_1 + ... + sunk_9` of nine bytes read with `Read_U8`. -/
def score (memory : Mem) : Int :=
  ((Read_U8 memory 0x91b4cf7b : Nat) : Int) + (Read_U8 memory 0x91b4d6ab : Nat) +
    (Read_U8 memory 0x91b4dddb : Nat) + (Read_U8 memory 0x91b4e50b : Nat) +
    (Read_U8 memory 0x91b4ec3b : Nat) + (Read_U8 memory 0x91b4f36b : Nat) +
    (Read_U8 memory 0x91b4fa9b : Nat) + (Read_U8 memory 0x91b501cb : Nat) +
    (Read_U8 memory 0x91b508fb : Nat)

/-- The nine bytes logged on a trap hit. -/
def sunkList (memory : Mem) : List Nat :=
  [Read_U8 memory 0x91b4cf7b, Read_U8 memory 0x91b4d6ab, Read_U8 memory 0x91b4dddb,
   Read_U8 memory 0x91b4e50b, Read_U8 memory 0x91b4ec3b, Read_U8 memory 0x91b4f36b,
   Read_U8 memory 0x91b4fa9b, Read_U8 memory 0x91b501cb, Read_U8 memory 0x91b508fb]

/-- The function `PerfectBreak::update`. The arguments are the program counter and
emulated memory at the time of the call. -/
def update (p : PerfectBreak) (pc : Nat) (memory : Mem) : Step PerfectBreak :=
  if pc = 0x802c4afc then
    let score := score memory
    let count := (p.count + 1) % 2 ^ 32
    { next :=
        { p with
          best_score := if score > p.best_score then score else p.best_score
          best_seed := if score > p.best_score then p.count else p.best_seed
          count := count }
      memory := writeRack p.state (WiiPlayRandomRack.new count)
      effects :=
        [Effect.ThrottlerTempDisabled] ++
          (if score > p.best_score then [Effect.Save 10] else []) ++
          [Effect.Log (sunkList memory) score p.count, Effect.LoadFromBuffer,
            Effect.EnableStepping false] }
  else
    { next := p
      memory := memory
      effects := [Effect.ThrottlerTempDisabled] }

/-- The steps of successive trap hits (calls of `update` with the program counter at
the breakpoint), the `i`-th one finding emulated memory `ms[i]`. -/
def trace : PerfectBreak → List Mem → List (Step PerfectBreak)
  | _, [] => []
  | p, m :: ms => update p 0x802c4afc m :: trace (update p 0x802c4afc m).next ms

/-- The statics after successive trap hits. -/
def run : PerfectBreak → List Mem → PerfectBreak
  | p, [] => p
  | p, m :: ms => run (update p 0x802c4afc m).next ms

/-- The statics after successive calls of `update`, each with its program counter and
the emulated memory it finds. -/
def runAll : PerfectBreak → List (Nat × Mem) → PerfectBreak
  | p, [] => p
  | p, e :: es => runAll (update p e.1 e.2).next es

end PerfectBreak

/-! ## Rounding lemmas -/

namespace F32

theorem log2Fuel_spec (fuel : Nat) : ∀ n, n ≤ fuel → n ≠ 0 →
    2 ^ log2Fuel fuel n ≤ n ∧ n < 2 ^ (log2Fuel fuel n + 1) := by
  induction fuel with
  | zero => intro n h h0; omega
  | succ f ih =>
    intro n h h0
    unfold log2Fuel
    by_cases h2 : n < 2
    · simp only [h2, if_true]; omega
    · simp only [h2, if_false]
      have hh := ih (n / 2) (by omega) (by omega)
      rw [pow_succ, pow_succ]
      omega

theorem log2_le (n : Nat) (h : n ≠ 0) : 2 ^ log2 n ≤ n :=
  (log2Fuel_spec n n (le_refl n) h).1

theorem lt_log2 (n : Nat) (h : n ≠ 0) : n < 2 ^ (log2 n + 1) :=
  (log2Fuel_spec n n (le_refl n) h).2

theorem log2_zero : log2 0 = 0 := rfl

theorem rne_le (n d V : Nat) (hd : 0 < d) (h : n ≤ V * d) : rne n d ≤ V := by
  have hq : n / d ≤ V := Nat.div_le_of_le_mul (by rw [Nat.mul_comm]; exact h)
  have hdm := Nat.div_add_mod n d
  have hup : 0 < n % d → n / d + 1 ≤ V := by
    intro hr
    by_contra hc
    have hV : V = n / d := by omega
    rw [hV, Nat.mul_comm] at h
    omega
  unfold rne
  split_ifs <;> first | exact hq | (apply hup; omega)

theorem le_rne (n d V : Nat) (hd : 0 < d) (h : V * d ≤ n) : V ≤ rne n d := by
  have hq : V ≤ n / d := (Nat.le_div_iff_mul_le hd).2 h
  unfold rne
  split_ifs <;> omega

/-- Above the first binades the quotient has its leading bit at `shift + 23`. -/
theorem shift_pos (n d : Nat) (hd : 0 < d) (hs : 0 < shift n d) :
    2 ^ 23 * (d * 2 ^ shift n d) ≤ n := by
  unfold shift at hs ⊢
  have h0 : n / d ≠ 0 := by
    intro h; rw [h, log2_zero] at hs; omega
  have h1 := log2_le (n / d) h0
  have h2 : 23 + (log2 (n / d) - 23) = log2 (n / d) := by omega
  have h3 : 2 ^ 23 * 2 ^ (log2 (n / d) - 23) * d ≤ n := by
    rw [← pow_add, h2]
    exact (Nat.le_div_iff_mul_le hd).1 h1
  calc 2 ^ 23 * (d * 2 ^ (log2 (n / d) - 23))
      = 2 ^ 23 * 2 ^ (log2 (n / d) - 23) * d := by ring
    _ ≤ n := h3

/-- The quotient lies below `2 ^ (shift + 24)`. -/
theorem lt_shift (n d : Nat) (hd : 0 < d) : n < 2 ^ 24 * (d * 2 ^ shift n d) := by
  unfold shift
  have h1 : n / d < 2 ^ (24 + (log2 (n / d) - 23)) := by
    by_cases h0 : n / d = 0
    · rw [h0]; exact Nat.two_pow_pos _
    · have := lt_log2 (n / d) h0
      exact lt_of_lt_of_le this (Nat.pow_le_pow_right (by norm_num) (by omega))
  have h2 := (Nat.div_lt_iff_lt_mul hd).1 h1
  calc n < 2 ^ (24 + (log2 (n / d) - 23)) * d := h2
    _ = 2 ^ 24 * (d * 2 ^ (log2 (n / d) - 23)) := by rw [pow_add]; ring

theorem sig_le (n d : Nat) (hd : 0 < d) : sig n d ≤ 2 ^ 24 :=
  rne_le n _ _ (Nat.mul_pos hd (Nat.two_pow_pos _)) (le_of_lt (lt_shift n d hd))

theorem le_sig (n d : Nat) (hd : 0 < d) (hs : 0 < shift n d) : 2 ^ 23 ≤ sig n d :=
  le_rne n _ _ (Nat.mul_pos hd (Nat.two_pow_pos _)) (shift_pos n d hd hs)

/-- The rounded magnitude does not exceed a representable magnitude above the exact one. -/
theorem rval_le (n d M S : Nat) (hd : 0 < d) (hM : M < 2 ^ 24) (h : n ≤ M * 2 ^ S * d) :
    rval n d ≤ M * 2 ^ S := by
  have hP : 0 < d * 2 ^ shift n d := Nat.mul_pos hd (Nat.two_pow_pos _)
  unfold rval
  by_cases hc : shift n d ≤ S
  · obtain ⟨k, hk⟩ := Nat.exists_eq_add_of_le hc
    have h1 : sig n d ≤ M * 2 ^ k := by
      apply rne_le n _ _ hP
      calc n ≤ M * 2 ^ S * d := h
        _ = M * 2 ^ k * (d * 2 ^ shift n d) := by rw [hk, pow_add]; ring
    calc sig n d * 2 ^ shift n d ≤ M * 2 ^ k * 2 ^ shift n d := Nat.mul_le_mul_right _ h1
      _ = M * 2 ^ S := by rw [hk, pow_add]; ring
  · exfalso
    have hs : 0 < shift n d := by omega
    have h1 := shift_pos n d hd hs
    obtain ⟨k, hk⟩ := Nat.exists_eq_add_of_le (show S + 1 ≤ shift n d by omega)
    have h2 : M * 2 ^ S * d < 2 ^ 24 * 2 ^ S * d :=
      Nat.mul_lt_mul_of_pos_right
        (Nat.mul_lt_mul_of_pos_right hM (Nat.two_pow_pos _)) hd
    have h3 : 2 ^ 24 * 2 ^ S * d ≤ 2 ^ 23 * (d * 2 ^ shift n d) := by
      rw [hk, pow_add, pow_add]
      have : 1 ≤ 2 ^ k := Nat.one_le_two_pow
      calc 2 ^ 24 * 2 ^ S * d = 2 ^ 23 * (d * (2 ^ S * 2 ^ 1 * 1)) := by ring
        _ ≤ 2 ^ 23 * (d * (2 ^ S * 2 ^ 1 * 2 ^ k)) :=
          Nat.mul_le_mul_left _ (Nat.mul_le_mul_left _ (Nat.mul_le_mul_left _ this))
    omega

/-- The rounded magnitude is not below a representable magnitude under the exact one. -/
theorem le_rval (n d M S : Nat) (hd : 0 < d) (hM : M < 2 ^ 24) (h : M * 2 ^ S * d ≤ n) :
    M * 2 ^ S ≤ rval n d := by
  have hP : 0 < d * 2 ^ shift n d := Nat.mul_pos hd (Nat.two_pow_pos _)
  unfold rval
  by_cases hc : shift n d ≤ S
  · obtain ⟨k, hk⟩ := Nat.exists_eq_add_of_le hc
    have h1 : M * 2 ^ k ≤ sig n d := by
      apply le_rne n _ _ hP
      calc M * 2 ^ k * (d * 2 ^ shift n d) = M * 2 ^ S * d := by rw [hk, pow_add]; ring
        _ ≤ n := h
    calc M * 2 ^ S = M * 2 ^ k * 2 ^ shift n d := by rw [hk, pow_add]; ring
      _ ≤ sig n d * 2 ^ shift n d := Nat.mul_le_mul_right _ h1
  · have hs : 0 < shift n d := by omega
    have h1 := le_sig n d hd hs
    obtain ⟨k, hk⟩ := Nat.exists_eq_add_of_le (show S + 1 ≤ shift n d by omega)
    have : 1 ≤ 2 ^ k := Nat.one_le_two_pow
    calc M * 2 ^ S ≤ 2 ^ 24 * 2 ^ S := Nat.mul_le_mul_right _ (le_of_lt hM)
      _ = 2 ^ 23 * (2 ^ S * 2 ^ 1 * 1) := by ring
      _ ≤ 2 ^ 23 * (2 ^ S * 2 ^ 1 * 2 ^ k) :=
          Nat.mul_le_mul_left _ (Nat.mul_le_mul_left _ this)
      _ = 2 ^ 23 * 2 ^ shift n d := by rw [hk, pow_add, pow_add]
      _ ≤ sig n d * 2 ^ shift n d := Nat.mul_le_mul_right _ h1

/-- Rounding is exact on representable magnitudes. -/
theorem rval_exact (d M S : Nat) (hd : 0 < d) (hM : M < 2 ^ 24) :
    rval (M * 2 ^ S * d) d = M * 2 ^ S :=
  le_antisymm (rval_le _ d M S hd hM (le_refl _)) (le_rval _ d M S hd hM (le_refl _))


theorem fields_small (m : Nat) (h : m < 2 ^ 23) : expo m = 0 ∧ mant m = m := by
  unfold expo mant
  norm_num at h ⊢
  omega

theorem fields_normal (s m : Nat) (h1 : 2 ^ 23 ≤ m) (h2 : m < 2 ^ 24) (hs : s < 254) :
    expo (s * 2 ^ 23 + m) = s + 1 ∧ mant (s * 2 ^ 23 + m) = m - 2 ^ 23 := by
  unfold expo mant
  norm_num at h1 h2 ⊢
  omega

theorem fields_carry (s : Nat) (hs : s < 253) :
    expo (s * 2 ^ 23 + 2 ^ 24) = s + 2 ∧ mant (s * 2 ^ 23 + 2 ^ 24) = 0 := by
  unfold expo mant
  norm_num
  omega

/-- Below the overflow threshold the packed exponent and significand are a finite
pattern whose magnitude is the rounded magnitude. -/
theorem roundMag_spec (n d : Nat) (hd : 0 < d) (h : rval n d < 2 ^ 277) :
    roundMag n d < 2 ^ 31 ∧ expo (roundMag n d) ≠ 255 ∧ mag (roundMag n d) = rval n d := by
  have hm := sig_le n d hd
  have hl := le_sig n d hd
  unfold rval at h ⊢
  have hs : shift n d < 254 := by
    by_contra hc
    have h1 := hl (by omega)
    have h2 : 2 ^ 23 * 2 ^ 254 ≤ sig n d * 2 ^ shift n d :=
      Nat.mul_le_mul h1 (Nat.pow_le_pow_right (by norm_num) (by omega))
    have h3 : (2 : Nat) ^ 23 * 2 ^ 254 = 2 ^ 277 := by rw [← pow_add]
    omega
  have hs2 : sig n d = 2 ^ 24 → shift n d < 253 := by
    intro he
    by_contra hc
    have h2 : 2 ^ 24 * 2 ^ 253 ≤ sig n d * 2 ^ shift n d := by
      rw [he]; exact Nat.mul_le_mul_left _ (Nat.pow_le_pow_right (by norm_num) (by omega))
    have h3 : (2 : Nat) ^ 24 * 2 ^ 253 = 2 ^ 277 := by rw [← pow_add]
    omega
  have hb : shift n d * 2 ^ 23 + sig n d < infBits := by
    unfold infBits
    norm_num at hm hs2 ⊢
    omega
  have hr : roundMag n d = shift n d * 2 ^ 23 + sig n d := by
    unfold roundMag; exact min_eq_left (le_of_lt hb)
  rw [hr]
  refine ⟨lt_trans hb (by unfold infBits; norm_num), ?_, ?_⟩
  · unfold expo; unfold infBits at hb; norm_num at hb ⊢; omega
  · by_cases c1 : sig n d < 2 ^ 23
    · have hz : shift n d = 0 := by
        by_contra hc
        have := hl (by omega)
        omega
      rw [hz] at *
      have hf := fields_small (sig n d) c1
      unfold mag
      simp only [Nat.zero_mul, Nat.zero_add, hf.1, hf.2, if_true, pow_zero, Nat.mul_one]
    · by_cases c2 : sig n d < 2 ^ 24
      · have hf := fields_normal (shift n d) (sig n d) (by omega) c2 hs
        unfold mag
        rw [hf.1, hf.2]
        have h4 : 2 ^ 23 + (sig n d - 2 ^ 23) = sig n d := by omega
        have h5 : shift n d + 1 ≠ 0 := by omega
        simp only [h5, if_false, h4, Nat.add_sub_cancel]
      · have he : sig n d = 2 ^ 24 := by omega
        have hf := fields_carry (shift n d) (hs2 he)
        unfold mag
        rw [he, hf.1, hf.2]
        have e1 : shift n d + 2 - 1 = shift n d + 1 := by omega
        simp only [e1, Nat.add_zero]
        rw [pow_succ]
        have : shift n d + 2 ≠ 0 := by omega
        simp only [this, if_false]
        ring

theorem sign_pack (s m : Nat) (hs : s ≤ 1) (hm : m < 2 ^ 31) : sign (pack s m) = s := by
  have h : m < 2147483648 := by simpa using hm
  unfold sign pack
  norm_num
  omega

theorem expo_pack (s m : Nat) (hm : m < 2 ^ 31) : expo (pack s m) = expo m := by
  have h : m < 2147483648 := by simpa using hm
  unfold expo pack
  norm_num
  omega

theorem mant_pack (s m : Nat) : mant (pack s m) = mant m := by
  unfold mant pack
  norm_num
  omega

theorem mag_pack (s m : Nat) (hm : m < 2 ^ 31) : mag (pack s m) = mag m := by
  unfold mag
  rw [expo_pack s m hm, mant_pack]

theorem isNaN_pack (s m : Nat) (hm : m < 2 ^ 31) : isNaN (pack s m) = isNaN m := by
  unfold isNaN
  rw [expo_pack s m hm, mant_pack]

theorem isInf_pack (s m : Nat) (hm : m < 2 ^ 31) : isInf (pack s m) = isInf m := by
  unfold isInf
  rw [expo_pack s m hm, mant_pack]

theorem isNaN_of_expo (b : Nat) (h : expo b ≠ 255) : isNaN b = false := by
  unfold isNaN; simp [h]

theorem isInf_of_expo (b : Nat) (h : expo b ≠ 255) : isInf b = false := by
  unfold isInf; simp [h]

theorem sign_of_lt (b : Nat) (h : b < 2 ^ 31) : sign b = 0 := by
  unfold sign
  norm_num at h ⊢
  omega

theorem toRat_eq (b : Nat) : toRat b = (toInt b : ℚ) / 2 ^ 149 := by
  unfold toRat toInt
  split_ifs <;> simp

theorem toInt_of_sign_zero (b : Nat) (h : sign b = 0) : toInt b = (mag b : Int) := by
  unfold toInt; simp [h]

/-- Conversion of an integer below `2 ^ 24` is exact. -/
theorem ofNat_spec (k : Nat) (hk : k < 2 ^ 24) :
    ofNat k < 2 ^ 31 ∧ expo (ofNat k) ≠ 255 ∧ mag (ofNat k) = k * 2 ^ 149 := by
  have h1 : rval (k * 2 ^ 149) 1 = k * 2 ^ 149 := by
    have := rval_exact 1 k 149 (by norm_num) hk
    rwa [Nat.mul_one] at this
  have h2 : rval (k * 2 ^ 149) 1 < 2 ^ 277 := by
    rw [h1]
    calc k * 2 ^ 149 < 2 ^ 24 * 2 ^ 149 := Nat.mul_lt_mul_of_pos_right hk (Nat.two_pow_pos _)
      _ ≤ 2 ^ 277 := by rw [← pow_add]; exact Nat.pow_le_pow_right (by omega) (by omega)
  have h3 := roundMag_spec _ 1 (by norm_num) h2
  unfold ofNat
  rw [h1] at h3
  exact h3

/-- Division of finite operands by a non-zero divisor is the rounded quotient. -/
theorem div_finite (a b : Nat) (ha : expo a ≠ 255) (hb : expo b ≠ 255) (h0 : mag b ≠ 0) :
    div a b = pack ((sign a + sign b) % 2) (roundMag (mag a * 2 ^ 149) (mag b)) := by
  unfold div
  simp [isNaN_of_expo, isInf_of_expo, ha, hb, h0]

/-- Multiplication of finite operands is the rounded product. -/
theorem mul_finite (a b : Nat) (ha : expo a ≠ 255) (hb : expo b ≠ 255) :
    mul a b = pack ((sign a + sign b) % 2) (roundMag (mag a * mag b) (2 ^ 149)) := by
  unfold mul
  simp [isNaN_of_expo, isInf_of_expo, ha, hb]

/-- The quotient of an integer below `2 ^ 16` by `65536.0f` is exact. -/
theorem div_65536 (k : Nat) (hk : k < 2 ^ 16) :
    div (ofNat k) (ofNat 0x10000) < 2 ^ 31 ∧ expo (div (ofNat k) (ofNat 0x10000)) ≠ 255 ∧
      mag (div (ofNat k) (ofNat 0x10000)) = k * 2 ^ 133 := by
  obtain ⟨a1, a2, a3⟩ := ofNat_spec k (lt_trans hk (by norm_num))
  obtain ⟨b1, b2, b3⟩ := ofNat_spec 0x10000 (by norm_num)
  have hb0 : mag (ofNat 0x10000) ≠ 0 := by rw [b3]; norm_num
  rw [div_finite _ _ a2 b2 hb0, sign_of_lt _ a1, sign_of_lt _ b1, a3, b3]
  have hd : 0 < 65536 * 2 ^ 149 := by norm_num
  have hn : k * 2 ^ 149 * 2 ^ 149 = k * 2 ^ 133 * (65536 * 2 ^ 149) := by
    have : (65536 : Nat) = 2 ^ 16 := by norm_num
    rw [this, Nat.mul_assoc, Nat.mul_assoc, ← pow_add, ← pow_add, ← pow_add]
  rw [hn]
  have h1 := rval_exact (65536 * 2 ^ 149) k 133 hd (lt_trans hk (by norm_num))
  have h2 : rval (k * 2 ^ 133 * (65536 * 2 ^ 149)) (65536 * 2 ^ 149) < 2 ^ 277 := by
    rw [h1]
    calc k * 2 ^ 133 < 2 ^ 16 * 2 ^ 133 := Nat.mul_lt_mul_of_pos_right hk (Nat.two_pow_pos _)
      _ ≤ 2 ^ 277 := by rw [← pow_add]; exact Nat.pow_le_pow_right (by omega) (by omega)
  obtain ⟨c1, c2, c3⟩ := roundMag_spec _ _ hd h2
  rw [h1] at c3
  have e0 : (0 + 0) % 2 = 0 := rfl
  rw [e0]
  have hp : pack 0 (roundMag (k * 2 ^ 133 * (65536 * 2 ^ 149)) (65536 * 2 ^ 149)) =
      roundMag (k * 2 ^ 133 * (65536 * 2 ^ 149)) (65536 * 2 ^ 149) := by
    unfold pack; omega
  rw [hp]
  exact ⟨c1, c2, c3⟩

theorem scaleLit_eq : scaleLit = 0x3e936113 := by decide!

theorem shiftLit_eq : shiftLit = 0x3e136113 := by decide!

theorem scale_fields : expo 0x3e936113 = 125 ∧ sign 0x3e936113 = 0 ∧
    mag 0x3e936113 = 9658643 * 2 ^ 124 := by decide!

theorem negShift_fields : neg 0x3e136113 = 0xbe136113 ∧ expo 0xbe136113 = 124 ∧
    sign 0xbe136113 = 1 ∧ mag 0xbe136113 = 9658643 * 2 ^ 123 := by decide!

theorem pack_zero (m : Nat) : pack 0 m = m := by unfold pack; omega

/-- Rounding a magnitude of at most `0.143925f` gives a finite pattern of at most that
magnitude. -/
theorem roundMag_le_shift (n : Nat) (h : n ≤ 9658643 * 2 ^ 123) :
    roundMag n 1 < 2 ^ 31 ∧ expo (roundMag n 1) ≠ 255 ∧
      mag (roundMag n 1) ≤ 9658643 * 2 ^ 123 := by
  have h1 : rval n 1 ≤ 9658643 * 2 ^ 123 :=
    rval_le n 1 9658643 123 (by norm_num) (by norm_num) (by rw [Nat.mul_one]; exact h)
  have h2 : rval n 1 < 2 ^ 277 := lt_of_le_of_lt h1 (by norm_num)
  obtain ⟨c1, c2, c3⟩ := roundMag_spec n 1 (by norm_num) h2
  exact ⟨c1, c2, by rw [c3]; exact h1⟩

/-- The offset computed from a draw in the unit interval is finite and its magnitude
is at most that of the literal `0.143925f`. -/
theorem offsetOf_bounds (d : Nat) (h1 : d < 2 ^ 31) (h2 : expo d ≠ 255)
    (h3 : mag d ≤ 2 ^ 149) :
    expo (offsetOf d) ≠ 255 ∧ -((9658643 * 2 ^ 123 : Nat) : Int) ≤ toInt (offsetOf d) ∧
      toInt (offsetOf d) ≤ ((9658643 * 2 ^ 123 : Nat) : Int) := by
  obtain ⟨s1, s2, s3⟩ := scale_fields
  obtain ⟨t1, t2, t3, t4⟩ := negShift_fields
  have hs : expo 0x3e936113 ≠ 255 := by rw [s1]; norm_num
  have ht : expo 0xbe136113 ≠ 255 := by rw [t2]; norm_num
  unfold offsetOf sub
  rw [scaleLit_eq, shiftLit_eq, t1, mul_finite d _ h2 hs, sign_of_lt d h1, s2, s3]
  have e0 : (0 + 0) % 2 = 0 := rfl
  rw [e0, pack_zero]
  have hn : mag d * (9658643 * 2 ^ 124) ≤ 9658643 * 2 ^ 124 * 2 ^ 149 := by
    rw [Nat.mul_comm (mag d)]
    exact Nat.mul_le_mul_left _ h3
  have r1 : rval (mag d * (9658643 * 2 ^ 124)) (2 ^ 149) ≤ 9658643 * 2 ^ 124 :=
    rval_le _ _ 9658643 124 (Nat.two_pow_pos _) (by norm_num) hn
  have r2 : rval (mag d * (9658643 * 2 ^ 124)) (2 ^ 149) < 2 ^ 277 :=
    lt_of_le_of_lt r1 (by norm_num)
  obtain ⟨p1, p2, p3⟩ := roundMag_spec _ _ (Nat.two_pow_pos 149) r2
  generalize roundMag (mag d * (9658643 * 2 ^ 124)) (2 ^ 149) = p at p1 p2 p3
  rw [← p3] at r1
  have hp : toInt p = (mag p : Int) := toInt_of_sign_zero p (sign_of_lt p p1)
  have hq : toInt 0xbe136113 = -((9658643 * 2 ^ 123 : Nat) : Int) := by
    unfold toInt; rw [t3, t4]; simp
  have e2 : (9658643 * 2 ^ 124 : Nat) = 2 * (9658643 * 2 ^ 123) := by norm_num
  rw [e2] at r1
  unfold add
  rw [isNaN_of_expo p p2, isNaN_of_expo _ ht, isInf_of_expo p p2, isInf_of_expo _ ht, hp, hq]
  have hR := roundMag_le_shift
  generalize (9658643 * 2 ^ 123 : Nat) = c at r1 hR ⊢
  simp only [Bool.or_self, Bool.false_eq_true, if_false]
  by_cases z0 : (mag p : Int) + -(c : Int) = 0
  · rw [if_pos z0, sign_of_lt p p1]
    simp only [zero_ne_one, false_and, if_false]
    refine ⟨by decide, ?_, ?_⟩
    · have : toInt 0 = 0 := by decide
      rw [this]; omega
    · have : toInt 0 = 0 := by decide
      rw [this]; omega
  · rw [if_neg z0]
    by_cases zn : (mag p : Int) + -(c : Int) < 0
    · rw [if_pos zn]
      obtain ⟨q1, q2, q3⟩ := hR ((mag p : Int) + -(c : Int)).natAbs (by omega)
      generalize roundMag ((mag p : Int) + -(c : Int)).natAbs 1 = q at q1 q2 q3
      refine ⟨by rw [expo_pack 1 q q1]; exact q2, ?_, ?_⟩
      · unfold toInt
        rw [sign_pack 1 q (le_refl 1) q1, mag_pack 1 q q1]
        simp only [if_true]
        omega
      · unfold toInt
        rw [sign_pack 1 q (le_refl 1) q1, mag_pack 1 q q1]
        simp only [if_true]
        omega
    · rw [if_neg zn, pack_zero]
      obtain ⟨q1, q2, q3⟩ := hR ((mag p : Int) + -(c : Int)).natAbs (by omega)
      generalize roundMag ((mag p : Int) + -(c : Int)).natAbs 1 = q at q1 q2 q3
      rw [toInt_of_sign_zero q (sign_of_lt q q1)]
      exact ⟨q2, by omega, by omega⟩

end F32

/-! ## The generator and the rack -/

namespace WiiPlayRandomFloat

theorem bits16_lt (g : WiiPlayRandomFloat) : g.bits16 < 2 ^ 16 := by
  unfold bits16
  exact Nat.and_lt_two_pow _ (by norm_num)

theorem random_fst (g : WiiPlayRandomFloat) :
    g.random.1.seed_ = (g.seed_ * 69069 + 1) % 2 ^ 32 := rfl

theorem random_snd (g : WiiPlayRandomFloat) :
    g.random.2 = F32.div (F32.ofNat g.bits16) (F32.ofNat 0x10000) := rfl

/-- The draw is the finite non-negative float `bits16 / 65536`. -/
theorem random_spec (g : WiiPlayRandomFloat) :
    g.random.2 < 2 ^ 31 ∧ F32.expo g.random.2 ≠ 255 ∧ F32.mag g.random.2 = g.bits16 * 2 ^ 133 := by
  rw [random_snd]
  exact F32.div_65536 g.bits16 (bits16_lt g)

theorem random_toRat (g : WiiPlayRandomFloat) :
    F32.toRat g.random.2 = (g.bits16 : ℚ) / 65536 := by
  obtain ⟨h1, _, h3⟩ := random_spec g
  rw [F32.toRat_eq, F32.toInt_of_sign_zero _ (F32.sign_of_lt _ h1), h3]
  push_cast
  rw [div_eq_div_iff (by positivity) (by positivity)]
  ring

end WiiPlayRandomFloat

/-- Every offset is finite and lies in the closed interval between minus and plus the
float literal `0.143925f`, which is below the decimal `0.143925`. -/
theorem offsetOf_random (g : WiiPlayRandomFloat) :
    F32.isFinite (offsetOf g.random.2) = true ∧
      (-143925 / 1000000 : ℚ) ≤ F32.toRat (offsetOf g.random.2) ∧
      F32.toRat (offsetOf g.random.2) < 143925 / 1000000 := by
  obtain ⟨h1, h2, h3⟩ := WiiPlayRandomFloat.random_spec g
  have hk := WiiPlayRandomFloat.bits16_lt g
  have hm : F32.mag g.random.2 ≤ 2 ^ 149 := by
    rw [h3]
    calc g.bits16 * 2 ^ 133 ≤ 2 ^ 16 * 2 ^ 133 := Nat.mul_le_mul_right _ (le_of_lt hk)
      _ = 2 ^ 149 := by rw [← pow_add]
  obtain ⟨b1, b2, b3⟩ := F32.offsetOf_bounds _ h1 h2 hm
  refine ⟨by unfold F32.isFinite; simpa using b1, ?_, ?_⟩
  · rw [F32.toRat_eq, le_div_iff₀ (by positivity)]
    have : ((-((9658643 * 2 ^ 123 : Nat) : Int) : Int) : ℚ) ≤ (F32.toInt (offsetOf g.random.2) : ℚ) :=
      Int.cast_le.2 b2
    refine le_trans ?_ this
    push_cast
    norm_num
  · rw [F32.toRat_eq, div_lt_iff₀ (by positivity)]
    have : (F32.toInt (offsetOf g.random.2) : ℚ) ≤ (((9658643 * 2 ^ 123 : Nat) : Int) : ℚ) :=
      Int.cast_le.2 b3
    refine lt_of_le_of_lt this ?_
    push_cast
    norm_num

namespace WiiPlayRandomRack

theorem beq_cue : Ball.beq Ball.CUE Ball.CUE = true ∧ Ball.beq Ball.ONE Ball.CUE = false ∧
    Ball.beq Ball.TWO Ball.CUE = false ∧ Ball.beq Ball.THREE Ball.CUE = false ∧
    Ball.beq Ball.FOUR Ball.CUE = false ∧ Ball.beq Ball.FIVE Ball.CUE = false ∧
    Ball.beq Ball.SIX Ball.CUE = false ∧ Ball.beq Ball.SEVEN Ball.CUE = false ∧
    Ball.beq Ball.EIGHT Ball.CUE = false ∧ Ball.beq Ball.NINE Ball.CUE = false := by decide!

/-- The constructor leaves the cue ball alone and offsets the nine numbered balls in
order, each by two consecutive draws. -/
theorem new_eq (seed : Nat) :
    new seed =
      ⟨(WiiPlayRandomFloat.new seed).after 18,
        [Ball.CUE,
         Ball.ONE.apply_offset (offsetOf ((WiiPlayRandomFloat.new seed).draw 1))
           (offsetOf ((WiiPlayRandomFloat.new seed).draw 2)),
         Ball.TWO.apply_offset (offsetOf ((WiiPlayRandomFloat.new seed).draw 3))
           (offsetOf ((WiiPlayRandomFloat.new seed).draw 4)),
         Ball.THREE.apply_offset (offsetOf ((WiiPlayRandomFloat.new seed).draw 5))
           (offsetOf ((WiiPlayRandomFloat.new seed).draw 6)),
         Ball.FOUR.apply_offset (offsetOf ((WiiPlayRandomFloat.new seed).draw 7))
           (offsetOf ((WiiPlayRandomFloat.new seed).draw 8)),
         Ball.FIVE.apply_offset (offsetOf ((WiiPlayRandomFloat.new seed).draw 9))
           (offsetOf ((WiiPlayRandomFloat.new seed).draw 10)),
         Ball.SIX.apply_offset (offsetOf ((WiiPlayRandomFloat.new seed).draw 11))
           (offsetOf ((WiiPlayRandomFloat.new seed).draw 12)),
         Ball.SEVEN.apply_offset (offsetOf ((WiiPlayRandomFloat.new seed).draw 13))
           (offsetOf ((WiiPlayRandomFloat.new seed).draw 14)),
         Ball.EIGHT.apply_offset (offsetOf ((WiiPlayRandomFloat.new seed).draw 15))
           (offsetOf ((WiiPlayRandomFloat.new seed).draw 16)),
         Ball.NINE.apply_offset (offsetOf ((WiiPlayRandomFloat.new seed).draw 17))
           (offsetOf ((WiiPlayRandomFloat.new seed).draw 18))]⟩ := by
  obtain ⟨h0, h1, h2, h3, h4, h5, h6, h7, h8, h9⟩ := beq_cue
  simp only [new, initial, loop, h0, h1, h2, h3, h4, h5, h6, h7, h8, h9, if_true,
    Bool.false_eq_true, if_false, WiiPlayRandomFloat.draw, WiiPlayRandomFloat.after]

end WiiPlayRandomRack

/-- C1: `WiiPlayRandomFloat::random` advances the state to `(state * 69069 + 1) mod 2^32`
(`0x10DCD = 69069`) and returns the finite float whose value is
`((new state >> 16) & 0xFFFF) / 65536`; seeded with 1, the state after the first draw is
69070 and the first draw is exactly `1 / 65536` (bit pattern `0x37800000`). -/
theorem C1_random_step (g : WiiPlayRandomFloat) :
    (0x10DCD : Nat) = 69069 ∧
    g.random.1.seed_ = (g.seed_ * 69069 + 1) % 2 ^ 32 ∧
    F32.isFinite g.random.2 = true ∧
    F32.toRat g.random.2 = (((g.random.1.seed_ >>> 16) &&& 0xFFFF : Nat) : ℚ) / 65536 ∧
    (WiiPlayRandomFloat.new 1).random.1.seed_ = 69070 ∧
    (WiiPlayRandomFloat.new 1).random.2 = 0x37800000 ∧
    F32.toRat (WiiPlayRandomFloat.new 1).random.2 = 1 / 65536 := by
  refine ⟨rfl, rfl, ?_, WiiPlayRandomFloat.random_toRat g, by decide!, by decide!, ?_⟩
  · have h := (WiiPlayRandomFloat.random_spec g).2.1
    unfold F32.isFinite
    simpa using h
  · rw [WiiPlayRandomFloat.random_toRat]
    have h : (WiiPlayRandomFloat.new 1).bits16 = 1 := by decide!
    rw [h]
    norm_num

/-- C2: for every seed, `WiiPlayRandomRack(seed)` holds 10 balls in the order CUE, ONE,
..., NINE; ball `i` (1 to 9) has `x = base_x + (d(2i-1) * 0.28785f - 0.143925f)`,
`z = base_z + (d(2i) * 0.28785f - 0.143925f)` in float arithmetic and `y` unchanged,
`d(k)` being the `k`-th draw of one generator seeded with the seed; 18 draws are
consumed, and no numbered ball compares equal to `Ball::CUE`. -/
theorem C2_rack_layout (seed : Nat) (j : Fin 9) :
    (WiiPlayRandomRack.new seed).balls_.length = 10 ∧
    WiiPlayRandomRack.initial =
      [Ball.CUE, Ball.ONE, Ball.TWO, Ball.THREE, Ball.FOUR, Ball.FIVE, Ball.SIX, Ball.SEVEN,
        Ball.EIGHT, Ball.NINE] ∧
    (WiiPlayRandomRack.new seed).GetBall (j.val + 1) =
      some
        { x_ := F32.add (WiiPlayRandomRack.initial.getD (j.val + 1) Ball.CUE).x_
            (F32.sub (F32.mul ((WiiPlayRandomFloat.new seed).draw (2 * (j.val + 1) - 1)) scaleLit)
              shiftLit)
          y_ := (WiiPlayRandomRack.initial.getD (j.val + 1) Ball.CUE).y_
          z_ := F32.add (WiiPlayRandomRack.initial.getD (j.val + 1) Ball.CUE).z_
            (F32.sub (F32.mul ((WiiPlayRandomFloat.new seed).draw (2 * (j.val + 1))) scaleLit)
              shiftLit) } ∧
    (WiiPlayRandomRack.new seed).rng_ = (WiiPlayRandomFloat.new seed).after 18 ∧
    (∀ b ∈ WiiPlayRandomRack.initial.tail, Ball.beq b Ball.CUE = false) := by
  refine ⟨by rw [WiiPlayRandomRack.new_eq]; rfl, rfl, ?_, by rw [WiiPlayRandomRack.new_eq], ?_⟩
  · rw [WiiPlayRandomRack.new_eq]
    fin_cases j <;> rfl
  · obtain ⟨_, h1, h2, h3, h4, h5, h6, h7, h8, h9⟩ := WiiPlayRandomRack.beq_cue
    intro b hb
    simp only [WiiPlayRandomRack.initial, List.tail_cons, List.mem_cons, List.mem_singleton,
      List.not_mem_nil, or_false] at hb
    rcases hb with h | h | h | h | h | h | h | h | h <;> rw [h] <;> assumption

/-- C3: for every seed, ball 0 of `WiiPlayRandomRack(seed)` is the constant `Ball::CUE`,
whose bit patterns are `0xc2480000`, `0x40383958`, `0x00000000`. -/
theorem C3_cue_untouched (seed : Nat) :
    (WiiPlayRandomRack.new seed).GetBall 0 = some Ball.CUE ∧
    (WiiPlayRandomRack.new seed).GetBall 0 = some ⟨0xc2480000, 0x40383958, 0x00000000⟩ := by
  rw [WiiPlayRandomRack.new_eq]
  exact ⟨rfl, rfl⟩

/-- C4: for every seed and each numbered ball, the two offsets
`(random() * 0.28785f) - 0.143925f` applied to `x` and to `z` are finite floats whose
values are at least `-0.143925` and strictly below `0.143925`. -/
theorem C4_offset_bounds (seed : Nat) (j : Fin 9) :
    ∃ offset_x offset_y : Nat,
      offset_x =
        F32.sub (F32.mul ((WiiPlayRandomFloat.new seed).draw (2 * (j.val + 1) - 1)) scaleLit)
          shiftLit ∧
      offset_y =
        F32.sub (F32.mul ((WiiPlayRandomFloat.new seed).draw (2 * (j.val + 1))) scaleLit)
          shiftLit ∧
      (WiiPlayRandomRack.new seed).GetBall (j.val + 1) =
        some ((WiiPlayRandomRack.initial.getD (j.val + 1) Ball.CUE).apply_offset
          offset_x offset_y) ∧
      F32.isFinite offset_x = true ∧ (-143925 / 1000000 : ℚ) ≤ F32.toRat offset_x ∧
      F32.toRat offset_x < 143925 / 1000000 ∧
      F32.isFinite offset_y = true ∧ (-143925 / 1000000 : ℚ) ≤ F32.toRat offset_y ∧
      F32.toRat offset_y < 143925 / 1000000 := by
  refine ⟨_, _, rfl, rfl, ?_, ?_⟩
  · rw [WiiPlayRandomRack.new_eq]
    fin_cases j <;> rfl
  · obtain ⟨a1, a2, a3⟩ :=
      offsetOf_random ((WiiPlayRandomFloat.new seed).after (2 * (j.val + 1) - 1 - 1))
    obtain ⟨b1, b2, b3⟩ :=
      offsetOf_random ((WiiPlayRandomFloat.new seed).after (2 * (j.val + 1) - 1))
    exact ⟨a1, a2, a3, b1, b2, b3⟩

/-- C5: for every generator state the value returned by `random` is `k / 65536` for an
integer `0 ≤ k ≤ 65535`, hence in `[0, 1)`, and all returned floats lie in one set of at
most 65536 patterns. -/
theorem C5_random_range (g : WiiPlayRandomFloat) :
    (∃ k : Nat, k ≤ 65535 ∧ F32.isFinite g.random.2 = true ∧
      F32.toRat g.random.2 = (k : ℚ) / 65536) ∧
    0 ≤ F32.toRat g.random.2 ∧ F32.toRat g.random.2 < 1 ∧
    (∃ S : Finset Nat, S.card ≤ 65536 ∧ ∀ h : WiiPlayRandomFloat, h.random.2 ∈ S) := by
  have hk := WiiPlayRandomFloat.bits16_lt g
  have hr := WiiPlayRandomFloat.random_toRat g
  have hq : (g.bits16 : ℚ) < 65536 := by exact_mod_cast hk
  refine ⟨⟨g.bits16, by omega, ?_, hr⟩, ?_, ?_, ?_⟩
  · have h := (WiiPlayRandomFloat.random_spec g).2.1
    unfold F32.isFinite
    simpa using h
  · rw [hr]; positivity
  · rw [hr, div_lt_one (by norm_num)]; exact hq
  · refine ⟨(Finset.range 65536).image (fun k => F32.div (F32.ofNat k) (F32.ofNat 0x10000)),
      le_trans Finset.card_image_le (by simp), ?_⟩
    intro h
    rw [WiiPlayRandomFloat.random_snd]
    exact Finset.mem_image.2 ⟨h.bits16, Finset.mem_range.2 (WiiPlayRandomFloat.bits16_lt h), rfl⟩

/-! ## The poll-based controller -/

namespace RackAttack

theorem Update_resolved (r : RackAttack) (m : Mem) :
    (Update r m).resolved = decide (idle r (observe m) > 3) := by
  unfold Update observe
  by_cases h : idle r (BreakState.read m).zeroY > 3
  · simp only [h, if_true, decide_True]
    unfold Step.resolved
    split_ifs <;> simp
  · simp only [h, if_false, decide_False]
    rfl

theorem Update_frames_idle (r : RackAttack) (m : Mem) :
    (Update r m).next.frames_idle = if idle r (observe m) > 3 then -1 else idle r (observe m) := by
  unfold Update observe
  by_cases h : idle r (BreakState.read m).zeroY > 3 <;> simp only [h, if_true, if_false]

theorem Update_last_state (r : RackAttack) (m : Mem) :
    (Update r m).next.last_state = observe m := by
  unfold Update observe
  by_cases h : idle r (BreakState.read m).zeroY > 3 <;> simp only [h, if_true, if_false]

theorem Update_best_seed (r : RackAttack) (m : Mem) :
    (Update r m).next.best_seed = r.best_seed := by
  unfold Update
  by_cases h : idle r (BreakState.read m).zeroY > 3 <;> simp only [h, if_true, if_false]

theorem Update_best_score (r : RackAttack) (m : Mem) :
    (Update r m).next.best_score =
      if idle r (observe m) > 3 ∧ (observe m).score > r.best_score then (observe m).score
      else r.best_score := by
  unfold Update observe
  by_cases h : idle r (BreakState.read m).zeroY > 3
  · simp only [h, if_true, true_and]
  · simp only [h, if_false, false_and]

theorem Update_saved (r : RackAttack) (m : Mem) :
    (Update r m).saved =
      decide (idle r (observe m) > 3 ∧ (observe m).score > r.best_score) := by
  unfold Update observe Step.saved
  by_cases h : idle r (BreakState.read m).zeroY > 3
  · by_cases h2 : (BreakState.read m).zeroY.score > r.best_score
    · simp [h, h2]
    · simp [h, h2]
  · simp [h]

end RackAttack

namespace BreakState

theorem zeroY_congr (s t : BreakState) (h : s.sameXZSunk t) : s.zeroY = t.zeroY := by
  have h0 := h 0
  have h1 := h 1
  have h2 := h 2
  have h3 := h 3
  have h4 := h 4
  have h5 := h 5
  have h6 := h 6
  have h7 := h 7
  have h8 := h 8
  have h9 := h 9
  simp only [balls, Fin.val_zero, Fin.val_one, Fin.val_two, List.getD_cons_zero,
    List.getD_cons_succ] at h0 h1 h2
  simp only [balls, Fin.isValue, List.getD_cons_zero, List.getD_cons_succ,
    show ((3 : Fin 10) : Nat) = 3 from rfl, show ((4 : Fin 10) : Nat) = 4 from rfl,
    show ((5 : Fin 10) : Nat) = 5 from rfl, show ((6 : Fin 10) : Nat) = 6 from rfl,
    show ((7 : Fin 10) : Nat) = 7 from rfl, show ((8 : Fin 10) : Nat) = 8 from rfl,
    show ((9 : Fin 10) : Nat) = 9 from rfl] at h3 h4 h5 h6 h7 h8 h9
  simp only [zeroY, BreakState.mk.injEq, BallState.mk.injEq, and_true, true_and]
  exact ⟨h0, h1, h2, h3, h4, h5, h6, h7, h8, h9⟩

theorem yZero_zeroY (s : BreakState) : s.zeroY.yZero := by
  intro b hb
  simp only [zeroY, balls, List.mem_cons, List.mem_singleton, List.not_mem_nil, or_false] at hb
  rcases hb with h | h | h | h | h | h | h | h | h | h <;> rw [h]

end BreakState

namespace RackAttack

/-- Updates on observations that agree up to `y` give the same statics and requests. -/
theorem Update_congr (r : RackAttack) (m m' : Mem) (h : observe m = observe m') :
    (Update r m).next = (Update r m').next ∧ (Update r m).effects = (Update r m').effects := by
  unfold observe at h
  unfold Update
  simp only [h]
  by_cases c : idle r (BreakState.read m').zeroY > 3 <;> simp [c]

theorem trace_congr (ms ms' : List Mem)
    (h : List.Forall₂ (fun m m' => (BreakState.read m).sameXZSunk (BreakState.read m')) ms ms') :
    ∀ r : RackAttack,
      (trace r ms).map (fun s => (s.next.frames_idle, s.resolved)) =
        (trace r ms').map (fun s => (s.next.frames_idle, s.resolved)) := by
  induction h with
  | nil => intro r; rfl
  | @cons a b l₁ l₂ hm _ ih =>
    intro r
    have hc := Update_congr r a b (BreakState.zeroY_congr _ _ hm)
    have hr : (Update r a).resolved = (Update r b).resolved := by
      unfold Step.resolved; rw [hc.2]
    simp only [trace, List.map_cons]
    rw [hc.1, hr, ih]

theorem trace_yZero (ms : List Mem) :
    ∀ r : RackAttack, ∀ s ∈ trace r ms, s.next.last_state.yZero := by
  induction ms with
  | nil => intro r s hs; simp [trace] at hs
  | cons m ms ih =>
    intro r s hs
    simp only [trace, List.mem_cons] at hs
    rcases hs with h | h
    · rw [h, Update_last_state]; exact BreakState.yZero_zeroY _
    · exact ih _ s h

end RackAttack

/-- C6 (as the code behaves): whatever `frames_idle` is (in particular 0), with a stored
last observation different from `O`, when `Update` sees 5 identical normalised
observations `O` followed by a distinct one, it resolves the shot exactly once, on the
update that sees the 5th identical observation, and on no update before or after it. -/
theorem C6_resolves_on_fifth (r : RackAttack) (O : BreakState) (m1 m2 m3 m4 m5 m6 : Mem)
    (hl : r.last_state ≠ O) (h1 : RackAttack.observe m1 = O) (h2 : RackAttack.observe m2 = O)
    (h3 : RackAttack.observe m3 = O) (h4 : RackAttack.observe m4 = O)
    (h5 : RackAttack.observe m5 = O) (h6 : RackAttack.observe m6 ≠ O) :
    (RackAttack.trace r [m1, m2, m3, m4, m5, m6]).map Step.resolved =
      [false, false, false, false, true, false] := by
  have h6' : ¬ O = RackAttack.observe m6 := fun h => h6 h.symm
  simp [RackAttack.trace, RackAttack.Update_resolved, RackAttack.idle,
    RackAttack.Update_last_state, RackAttack.Update_frames_idle, h1, h2, h3, h4, h5, hl, h6']

/-- Witness of C6 (as the code behaves): five samples with the sunk count of ball ONE at
1, then one with it at 0, from the zero-initialised statics. -/
theorem C6_resolves_on_fifth_witness :
    (RackAttack.trace RackAttack.static
      [sunkOne 1, sunkOne 1, sunkOne 1, sunkOne 1, sunkOne 1, sunkOne 0]).map Step.resolved =
      [false, false, false, false, true, false] :=
  C6_resolves_on_fifth RackAttack.static (RackAttack.observe (sunkOne 1)) _ _ _ _ _ _
    (by decide!) rfl rfl rfl rfl rfl (by decide!)

/-- C6 fails as stated: from `frames_idle = 0` and a different stored observation, four
identical observations followed by a distinct one resolve nothing; the 4th identical
sample only brings `frames_idle` to 3. -/
theorem C6_four_samples_do_not_resolve :
    RackAttack.static.frames_idle = 0 ∧
    RackAttack.static.last_state ≠ RackAttack.observe (sunkOne 1) ∧
    RackAttack.observe (sunkOne 0) ≠ RackAttack.observe (sunkOne 1) ∧
    (RackAttack.trace RackAttack.static
      [sunkOne 1, sunkOne 1, sunkOne 1, sunkOne 1, sunkOne 0]).map Step.resolved =
      [false, false, false, false, false] ∧
    (RackAttack.trace RackAttack.static
      [sunkOne 1, sunkOne 1, sunkOne 1, sunkOne 1, sunkOne 0]).map
        (fun s => s.next.frames_idle) = [0, 1, 2, 3, 0] := by
  decide!

/-- C7: settle detection ignores the vertical coordinate. For two streams of raw
observations that agree on every ball's `x`, `z` and sunk count, `Update` from the same
statics leaves the same `frames_idle` after every update and resolves on the same
updates, and the stored `last_state` has `y = 0` for all ten balls after every update. -/
theorem C7_y_ignored (r : RackAttack) (ms ms' : List Mem)
    (h : List.Forall₂ (fun m m' => (BreakState.read m).sameXZSunk (BreakState.read m')) ms ms') :
    (RackAttack.trace r ms).map (fun s => (s.next.frames_idle, s.resolved)) =
      (RackAttack.trace r ms').map (fun s => (s.next.frames_idle, s.resolved)) ∧
    (∀ s ∈ RackAttack.trace r ms, s.next.last_state.yZero) ∧
    (∀ s ∈ RackAttack.trace r ms', s.next.last_state.yZero) :=
  ⟨RackAttack.trace_congr ms ms' h r, RackAttack.trace_yZero ms r, RackAttack.trace_yZero ms' r⟩

/-- Witness of C7: two one-sample streams that differ only in a `y` byte of ball ONE. -/
theorem C7_y_ignored_witness :
    (RackAttack.trace RackAttack.static [fun a => if a = 0x91B4D080 then 7 else 0]).map
        (fun s => (s.next.frames_idle, s.resolved)) =
      (RackAttack.trace RackAttack.static [fun _ => 0]).map
        (fun s => (s.next.frames_idle, s.resolved)) ∧
    BreakState.read (fun a => if a = 0x91B4D080 then 7 else 0) ≠ BreakState.read (fun _ => 0) :=
  ⟨(C7_y_ignored RackAttack.static [fun a => if a = 0x91B4D080 then 7 else 0] [fun _ => 0]
      (List.Forall₂.cons (by decide!) List.Forall₂.nil)).1, by decide!⟩

/-! ## The trap-based controller and best-result bookkeeping -/

namespace PerfectBreak

theorem score_nonneg (m : Mem) : 0 ≤ score m := by
  unfold score; positivity

theorem foldl_max_ge (l : List Int) : ∀ a : Int, a ≤ l.foldl max a := by
  induction l with
  | nil => intro a; exact le_refl a
  | cons b l ih => intro a; exact le_trans (le_max_left a b) (ih _)

theorem update_hit (p : PerfectBreak) (m : Mem) :
    (update p 0x802c4afc m).next.best_score = max p.best_score (score m) ∧
    (update p 0x802c4afc m).next.best_seed =
      (if score m > p.best_score then p.count else p.best_seed) ∧
    (update p 0x802c4afc m).next.count = (p.count + 1) % 2 ^ 32 ∧
    (update p 0x802c4afc m).saved = decide (score m > p.best_score) := by
  unfold update Step.saved
  by_cases h : score m > p.best_score
  · simp [h, max_eq_right (le_of_lt h)]
  · simp [h, max_eq_left (not_lt.1 h)]

theorem run_append (ms : List Mem) (m : Mem) :
    ∀ p : PerfectBreak, run p (ms ++ [m]) = (update (run p ms) 0x802c4afc m).next := by
  induction ms with
  | nil => intro p; rfl
  | cons a ms ih => intro p; exact ih _

/-- The best score is the running maximum and the best seed the index (as a 32-bit
counter) of the first trial that reached it. -/
theorem run_spec (st : Mem) (ms : List Mem) :
    (run ⟨st, 0, 0, 0⟩ ms).count = ms.length % 2 ^ 32 ∧
    (run ⟨st, 0, 0, 0⟩ ms).best_score = (ms.map score).foldl max 0 ∧
    (∀ i, i < ms.length → (ms.map score).getD i 0 ≤ (run ⟨st, 0, 0, 0⟩ ms).best_score) ∧
    ((run ⟨st, 0, 0, 0⟩ ms).best_score = 0 → (run ⟨st, 0, 0, 0⟩ ms).best_seed = 0) ∧
    (0 < (run ⟨st, 0, 0, 0⟩ ms).best_score →
      ∃ j, j < ms.length ∧ (run ⟨st, 0, 0, 0⟩ ms).best_seed = j % 2 ^ 32 ∧
        (ms.map score).getD j 0 = (run ⟨st, 0, 0, 0⟩ ms).best_score ∧
        ∀ i, i < j → (ms.map score).getD i 0 < (run ⟨st, 0, 0, 0⟩ ms).best_score) := by
  induction ms using List.reverseRecOn with
  | nil => exact ⟨rfl, rfl, fun i h => by simp at h, fun _ => rfl, fun h => absurd h (lt_irrefl (0 : Int))⟩
  | append_singleton ms m ih =>
    obtain ⟨i1, i2, i3, i4, i5⟩ := ih
    obtain ⟨u1, u2, u3, _⟩ := update_hit (run ⟨st, 0, 0, 0⟩ ms) m
    rw [run_append]
    generalize run ⟨st, 0, 0, 0⟩ ms = p at *
    generalize (update p 0x802c4afc m).next = q at *
    have hs := score_nonneg m
    have hget : ∀ i, i < ms.length →
        (List.map score (ms ++ [m])).getD i 0 = (List.map score ms).getD i 0 := by
      intro i hi
      rw [List.map_append, List.getD_append _ _ _ _ (by simpa using hi)]
    have hlast : (List.map score (ms ++ [m])).getD ms.length 0 = score m := by
      rw [List.map_append, List.getD_append_right _ _ _ _ (by simp)]
      simp
    have hb0 : 0 ≤ p.best_score := by
      rw [i2]; exact foldl_max_ge _ _
    refine ⟨?_, ?_, ?_, ?_, ?_⟩
    · rw [u3, i1, List.length_append, List.length_singleton]; omega
    · rw [u1, i2, List.map_append, List.foldl_append]; rfl
    · intro i hi
      rw [List.length_append, List.length_singleton] at hi
      by_cases c : i < ms.length
      · rw [hget i c, u1]; exact le_trans (i3 i c) (le_max_left _ _)
      · have : i = ms.length := by omega
        rw [this, hlast, u1]; exact le_max_right _ _
    · intro h0
      rw [u1] at h0
      rw [u2]
      have : ¬ score m > p.best_score := by omega
      rw [if_neg this]
      exact i4 (by omega)
    · intro hpos
      rw [u1] at hpos
      rw [u2, u1]
      by_cases c : score m > p.best_score
      · rw [if_pos c, max_eq_right (le_of_lt c)]
        refine ⟨ms.length, by simp, i1, hlast, ?_⟩
        intro i hi
        rw [hget i hi]
        exact lt_of_le_of_lt (i3 i hi) c
      · rw [if_neg c, max_eq_left (by omega)]
        obtain ⟨j, j1, j2, j3, j4⟩ := i5 (by omega)
        refine ⟨j, by simp; omega, j2, by rw [hget j j1]; exact j3, ?_⟩
        intro i hi
        rw [hget i (by omega)]
        exact j4 i hi

end PerfectBreak

/-- C8: trap-based best tracking. From `best_score = 0`, `best_seed = 0`, `count = 0`,
after any sequence of trap hits `best_score` is the maximum of 0 and the scores, and
`best_seed` is the value `count` had at the first trial that attained it (0 if no
score exceeded 0); a score that is not a strict improvement changes neither; for the scores
3, 5, 2, 7, 7, 6 `best_score` runs 3, 5, 5, 7, 7, 7 and `best_seed` 0, 1, 1, 3, 3, 3. -/
theorem C8_best_tracking (st : Mem) (ms : List Mem) :
    (PerfectBreak.run ⟨st, 0, 0, 0⟩ ms).best_score = (ms.map PerfectBreak.score).foldl max 0 ∧
    ((PerfectBreak.run ⟨st, 0, 0, 0⟩ ms).best_score = 0 →
      (PerfectBreak.run ⟨st, 0, 0, 0⟩ ms).best_seed = 0) ∧
    (0 < (PerfectBreak.run ⟨st, 0, 0, 0⟩ ms).best_score →
      ∃ j, j < ms.length ∧ (PerfectBreak.run ⟨st, 0, 0, 0⟩ ms).best_seed = j % 2 ^ 32 ∧
        (PerfectBreak.run ⟨st, 0, 0, 0⟩ (ms.take j)).count = j % 2 ^ 32 ∧
        (ms.map PerfectBreak.score).getD j 0 = (PerfectBreak.run ⟨st, 0, 0, 0⟩ ms).best_score ∧
        ∀ i, i < j →
          (ms.map PerfectBreak.score).getD i 0 < (PerfectBreak.run ⟨st, 0, 0, 0⟩ ms).best_score) ∧
    (∀ (p : PerfectBreak) (m : Mem), PerfectBreak.score m ≤ p.best_score →
      (PerfectBreak.update p 0x802c4afc m).next.best_seed = p.best_seed ∧
      (PerfectBreak.update p 0x802c4afc m).next.best_score = p.best_score) ∧
    (∀ (p : PerfectBreak) (m : Mem), p.best_score < PerfectBreak.score m →
      (PerfectBreak.update p 0x802c4afc m).next.best_seed = p.count ∧
      (PerfectBreak.update p 0x802c4afc m).next.best_score = PerfectBreak.score m) ∧
    [sunkOne 3, sunkOne 5, sunkOne 2, sunkOne 7, sunkOne 7, sunkOne 6].map PerfectBreak.score =
      [3, 5, 2, 7, 7, 6] ∧
    (PerfectBreak.trace PerfectBreak.static
        [sunkOne 3, sunkOne 5, sunkOne 2, sunkOne 7, sunkOne 7, sunkOne 6]).map
        (fun s => (s.next.best_score, s.next.best_seed)) =
      [(3, 0), (5, 1), (5, 1), (7, 3), (7, 3), (7, 3)] := by
  obtain ⟨_, h2, _, h4, h5⟩ := PerfectBreak.run_spec st ms
  refine ⟨h2, h4, ?_, ?_, ?_, by decide!, by decide!⟩
  · intro hpos
    obtain ⟨j, j1, j2, j3, j4⟩ := h5 hpos
    have hc := (PerfectBreak.run_spec st (ms.take j)).1
    rw [List.length_take, min_eq_left (le_of_lt j1)] at hc
    exact ⟨j, j1, j2, hc, j3, j4⟩
  · intro p m h
    obtain ⟨u1, u2, _, _⟩ := PerfectBreak.update_hit p m
    rw [u1, u2, if_neg (not_lt.2 h), max_eq_left h]
    exact ⟨rfl, rfl⟩
  · intro p m h
    obtain ⟨u1, u2, _, _⟩ := PerfectBreak.update_hit p m
    rw [u1, u2, if_pos h, max_eq_right (le_of_lt h)]
    exact ⟨rfl, rfl⟩

/-- C9: a resolving update requests `State::Save(10)` exactly when the trial's score is
strictly greater than the `best_score` held before it, in both controllers; an equal or
lower score changes neither `best_score` nor `best_seed`. The trap-based controller
started at 0 with trials scoring 4, 9, 9 saves after the first and the second, not
after the third, and ends with `best_seed = 1`. -/
theorem C9_save_iff_improvement :
    (∀ (p : PerfectBreak) (m : Mem),
      (PerfectBreak.update p 0x802c4afc m).resolved = true ∧
      ((PerfectBreak.update p 0x802c4afc m).saved = true ↔
        PerfectBreak.score m > p.best_score) ∧
      (PerfectBreak.score m ≤ p.best_score →
        (PerfectBreak.update p 0x802c4afc m).next.best_score = p.best_score ∧
        (PerfectBreak.update p 0x802c4afc m).next.best_seed = p.best_seed)) ∧
    (∀ (r : RackAttack) (m : Mem), (RackAttack.Update r m).resolved = true →
      (((RackAttack.Update r m).saved = true ↔ (RackAttack.observe m).score > r.best_score) ∧
      ((RackAttack.observe m).score ≤ r.best_score →
        (RackAttack.Update r m).next.best_score = r.best_score ∧
        (RackAttack.Update r m).next.best_seed = r.best_seed))) ∧
    [sunkOne 4, sunkOne 9, sunkOne 9].map PerfectBreak.score = [4, 9, 9] ∧
    (PerfectBreak.trace PerfectBreak.static [sunkOne 4, sunkOne 9, sunkOne 9]).map
      Step.saved = [true, true, false] ∧
    (PerfectBreak.trace PerfectBreak.static [sunkOne 4, sunkOne 9, sunkOne 9]).map
      Step.resolved = [true, true, true] ∧
    (PerfectBreak.run PerfectBreak.static [sunkOne 4, sunkOne 9, sunkOne 9]).best_seed = 1 := by
  refine ⟨?_, ?_, by decide!, by decide!, by decide!, by decide!⟩
  · intro p m
    obtain ⟨u1, u2, _, u4⟩ := PerfectBreak.update_hit p m
    refine ⟨?_, by rw [u4]; simp, ?_⟩
    · unfold PerfectBreak.update Step.resolved
      by_cases h : PerfectBreak.score m > p.best_score <;> simp [h]
    · intro h
      rw [u1, u2, if_neg (not_lt.2 h), max_eq_left h]
      exact ⟨rfl, rfl⟩
  · intro r m hr
    rw [RackAttack.Update_resolved] at hr
    have hi : RackAttack.idle r (RackAttack.observe m) > 3 := by simpa using hr
    refine ⟨?_, ?_⟩
    · rw [RackAttack.Update_saved]; simp [hi]
    · intro h
      rw [RackAttack.Update_best_score, RackAttack.Update_best_seed,
        if_neg (fun c => absurd c.2 (not_lt.2 h))]
      exact ⟨rfl, rfl⟩

/-- C10 fails on the code: `RackAttack::Update` never assigns `best_seed`. From `Init`,
three trials resolve with scores 0, 1 and 2; the third is reported with seed 2 and
raises `best_score` to 2, yet `best_seed` is still 0. -/
theorem C10_best_seed_never_set :
    (∀ (r : RackAttack) (m : Mem), (RackAttack.Update r m).next.best_seed = r.best_seed) ∧
    (RackAttack.trace (RackAttack.Init RackAttack.static (sunkOne 0)).next
        [sunkOne 0, sunkOne 0, sunkOne 0, sunkOne 0,
         sunkOne 1, sunkOne 1, sunkOne 1, sunkOne 1, sunkOne 1,
         sunkOne 2, sunkOne 2, sunkOne 2, sunkOne 2, sunkOne 2]).map
        (fun s => (s.effects.take 2, s.next.best_score, s.next.best_seed)) =
      [([], 0, 0), ([], 0, 0), ([], 0, 0), ([Effect.OSD 0 0 0, Effect.Log [0, 0, 0, 0, 0, 0, 0, 0, 0] 0 0], 0, 0),
       ([], 0, 0), ([], 0, 0), ([], 0, 0), ([], 0, 0), ([Effect.Save 10, Effect.OSD 1 1 1], 1, 0),
       ([], 1, 0), ([], 1, 0), ([], 1, 0), ([], 1, 0), ([Effect.Save 10, Effect.OSD 2 2 2], 2, 0)] := by
  exact ⟨RackAttack.Update_best_seed, by decide!⟩

/-! ## Memory writes of the rack -/

theorem Write_U32_other (m : Mem) (v a p : Nat) (h : p < a ∨ a + 4 ≤ p) :
    Write_U32 m v a p = m p := by
  unfold Write_U32
  rw [if_neg (by omega), if_neg (by omega), if_neg (by omega), if_neg (by omega)]

theorem Read_U32_Write_U32 (m : Mem) (v a : Nat) :
    Read_U32 (Write_U32 m v a) a = v % 2 ^ 32 := by
  unfold Read_U32 Read_U8 Write_U32
  simp only [if_true, if_neg (show ¬ a + 1 = a by omega), if_neg (show ¬ a + 2 = a by omega),
    if_neg (show ¬ a + 3 = a by omega), if_neg (show ¬ a + 2 = a + 1 by omega),
    if_neg (show ¬ a + 3 = a + 1 by omega), if_neg (show ¬ a + 3 = a + 2 by omega)]
  norm_num
  omega

theorem Read_U32_congr (m m' : Mem) (a : Nat)
    (h : ∀ p, a ≤ p → p < a + 4 → m' p = m p) : Read_U32 m' a = Read_U32 m a := by
  unfold Read_U32 Read_U8
  rw [h a (by omega) (by omega), h (a + 1) (by omega) (by omega),
    h (a + 2) (by omega) (by omega), h (a + 3) (by omega) (by omega)]

theorem writeBall_other (m : Mem) (b : Option Ball) (a p : Nat) (h : p < a ∨ a + 12 ≤ p) :
    writeBall m b a p = m p := by
  cases b with
  | none => rfl
  | some b =>
    unfold writeBall
    simp only
    rw [Write_U32_other _ _ _ _ (by omega), Write_U32_other _ _ _ _ (by omega),
      Write_U32_other _ _ _ _ (by omega)]

theorem Read_U32_writeBall_other (m : Mem) (b : Option Ball) (a q : Nat)
    (h : q + 4 ≤ a ∨ a + 12 ≤ q) : Read_U32 (writeBall m b a) q = Read_U32 m q :=
  Read_U32_congr _ _ _ (fun p h1 h2 => writeBall_other m b a p (by omega))

theorem Read_U32_writeBall (m : Mem) (b : Ball) (a : Nat) :
    Read_U32 (writeBall m (some b) a) a = b.x_ % 2 ^ 32 ∧
    Read_U32 (writeBall m (some b) a) (a + 4) = b.y_ % 2 ^ 32 ∧
    Read_U32 (writeBall m (some b) a) (a + 8) = b.z_ % 2 ^ 32 := by
  unfold writeBall
  simp only [Ball.x_iec559, Ball.y_iec559, Ball.z_iec559]
  refine ⟨?_, ?_, ?_⟩
  · rw [Read_U32_congr _ _ a (fun p h1 h2 => Write_U32_other _ _ _ p (by omega)),
      Read_U32_congr _ _ a (fun p h1 h2 => Write_U32_other _ _ _ p (by omega)),
      Read_U32_Write_U32]
  · rw [Read_U32_congr _ _ (a + 4) (fun p h1 h2 => Write_U32_other _ _ _ p (by omega)),
      Read_U32_Write_U32]
  · rw [Read_U32_Write_U32]

/-- A rack of ten balls is stored ball by ball: the three position words of ball `j + 1`
read back as its bit patterns. -/
theorem Read_U32_writeRack (m : Mem) (rack : WiiPlayRandomRack) (j : Fin 9) (b : Ball)
    (hb : rack.GetBall (j.val + 1) = some b) :
    Read_U32 (writeRack m rack) (posAddr.getD (j.val + 1) 0) = b.x_ % 2 ^ 32 ∧
    Read_U32 (writeRack m rack) (posAddr.getD (j.val + 1) 0 + 4) = b.y_ % 2 ^ 32 ∧
    Read_U32 (writeRack m rack) (posAddr.getD (j.val + 1) 0 + 8) = b.z_ % 2 ^ 32 := by
  unfold writeRack
  fin_cases j
  · have hb' : rack.GetBall 1 = some b := hb
    show Read_U32 _ 0x91B4D07C = _ ∧ Read_U32 _ (0x91B4D07C + 4) = _ ∧ Read_U32 _ (0x91B4D07C + 8) = _
    refine ⟨?_, ?_, ?_⟩ <;> (repeat rw [Read_U32_writeBall_other _ _ _ _ (by omega)]) <;>
      rw [hb']
    · exact (Read_U32_writeBall _ _ _).1
    · exact (Read_U32_writeBall _ _ _).2.1
    · exact (Read_U32_writeBall _ _ _).2.2
  · have hb' : rack.GetBall 2 = some b := hb
    show Read_U32 _ 0x91B4D7AC = _ ∧ Read_U32 _ (0x91B4D7AC + 4) = _ ∧ Read_U32 _ (0x91B4D7AC + 8) = _
    refine ⟨?_, ?_, ?_⟩ <;> (repeat rw [Read_U32_writeBall_other _ _ _ _ (by omega)]) <;>
      rw [hb']
    · exact (Read_U32_writeBall _ _ _).1
    · exact (Read_U32_writeBall _ _ _).2.1
    · exact (Read_U32_writeBall _ _ _).2.2
  · have hb' : rack.GetBall 3 = some b := hb
    show Read_U32 _ 0x91B4DEDC = _ ∧ Read_U32 _ (0x91B4DEDC + 4) = _ ∧ Read_U32 _ (0x91B4DEDC + 8) = _
    refine ⟨?_, ?_, ?_⟩ <;> (repeat rw [Read_U32_writeBall_other _ _ _ _ (by omega)]) <;>
      rw [hb']
    · exact (Read_U32_writeBall _ _ _).1
    · exact (Read_U32_writeBall _ _ _).2.1
    · exact (Read_U32_writeBall _ _ _).2.2
  · have hb' : rack.GetBall 4 = some b := hb
    show Read_U32 _ 0x91B4E60C = _ ∧ Read_U32 _ (0x91B4E60C + 4) = _ ∧ Read_U32 _ (0x91B4E60C + 8) = _
    refine ⟨?_, ?_, ?_⟩ <;> (repeat rw [Read_U32_writeBall_other _ _ _ _ (by omega)]) <;>
      rw [hb']
    · exact (Read_U32_writeBall _ _ _).1
    · exact (Read_U32_writeBall _ _ _).2.1
    · exact (Read_U32_writeBall _ _ _).2.2
  · have hb' : rack.GetBall 5 = some b := hb
    show Read_U32 _ 0x91B4ED3C = _ ∧ Read_U32 _ (0x91B4ED3C + 4) = _ ∧ Read_U32 _ (0x91B4ED3C + 8) = _
    refine ⟨?_, ?_, ?_⟩ <;> (repeat rw [Read_U32_writeBall_other _ _ _ _ (by omega)]) <;>
      rw [hb']
    · exact (Read_U32_writeBall _ _ _).1
    · exact (Read_U32_writeBall _ _ _).2.1
    · exact (Read_U32_writeBall _ _ _).2.2
  · have hb' : rack.GetBall 6 = some b := hb
    show Read_U32 _ 0x91B4F46C = _ ∧ Read_U32 _ (0x91B4F46C + 4) = _ ∧ Read_U32 _ (0x91B4F46C + 8) = _
    refine ⟨?_, ?_, ?_⟩ <;> (repeat rw [Read_U32_writeBall_other _ _ _ _ (by omega)]) <;>
      rw [hb']
    · exact (Read_U32_writeBall _ _ _).1
    · exact (Read_U32_writeBall _ _ _).2.1
    · exact (Read_U32_writeBall _ _ _).2.2
  · have hb' : rack.GetBall 7 = some b := hb
    show Read_U32 _ 0x91B4FB9C = _ ∧ Read_U32 _ (0x91B4FB9C + 4) = _ ∧ Read_U32 _ (0x91B4FB9C + 8) = _
    refine ⟨?_, ?_, ?_⟩ <;> (repeat rw [Read_U32_writeBall_other _ _ _ _ (by omega)]) <;>
      rw [hb']
    · exact (Read_U32_writeBall _ _ _).1
    · exact (Read_U32_writeBall _ _ _).2.1
    · exact (Read_U32_writeBall _ _ _).2.2
  · have hb' : rack.GetBall 8 = some b := hb
    show Read_U32 _ 0x91B502CC = _ ∧ Read_U32 _ (0x91B502CC + 4) = _ ∧ Read_U32 _ (0x91B502CC + 8) = _
    refine ⟨?_, ?_, ?_⟩ <;> (repeat rw [Read_U32_writeBall_other _ _ _ _ (by omega)]) <;>
      rw [hb']
    · exact (Read_U32_writeBall _ _ _).1
    · exact (Read_U32_writeBall _ _ _).2.1
    · exact (Read_U32_writeBall _ _ _).2.2
  · have hb' : rack.GetBall 9 = some b := hb
    show Read_U32 _ 0x91B509FC = _ ∧ Read_U32 _ (0x91B509FC + 4) = _ ∧ Read_U32 _ (0x91B509FC + 8) = _
    refine ⟨?_, ?_, ?_⟩ <;> rw [hb']
    · exact (Read_U32_writeBall _ _ _).1
    · exact (Read_U32_writeBall _ _ _).2.1
    · exact (Read_U32_writeBall _ _ _).2.2

/-- Outside the 27 position words the rack writes nothing. -/
theorem writeRack_other (m : Mem) (rack : WiiPlayRandomRack) (p : Nat)
    (h : inRackWords p = false) : writeRack m rack p = m p := by
  unfold inRackWords posAddr at h
  simp only [List.tail_cons, List.any_cons, List.any_nil, Bool.or_false, Bool.or_eq_false_iff,
    decide_eq_false_iff_not, not_and, not_lt] at h
  obtain ⟨h1, h2, h3, h4, h5, h6, h7, h8, h9⟩ := h
  unfold writeRack
  rw [writeBall_other _ _ _ _ (by omega), writeBall_other _ _ _ _ (by omega),
    writeBall_other _ _ _ _ (by omega), writeBall_other _ _ _ _ (by omega),
    writeBall_other _ _ _ _ (by omega), writeBall_other _ _ _ _ (by omega),
    writeBall_other _ _ _ _ (by omega), writeBall_other _ _ _ _ (by omega),
    writeBall_other _ _ _ _ (by omega)]

/-! ## Results of float operations are 32-bit patterns -/

namespace F32

theorem roundMag_le (n d : Nat) : roundMag n d ≤ infBits := min_le_right _ _

theorem pack_lt (s m : Nat) (hs : s ≤ 1) (hm : m ≤ infBits) : pack s m < 2 ^ 32 := by
  unfold pack
  unfold infBits at hm
  norm_num
  omega

theorem sign_le (b : Nat) : sign b ≤ 1 := by
  unfold sign; omega

theorem neg_lt (b : Nat) : neg b < 2 ^ 32 := by
  unfold neg pack
  have := sign_le b
  norm_num
  omega

theorem add_lt (a b : Nat) (ha : a < 2 ^ 32) (hb : b < 2 ^ 32) : add a b < 2 ^ 32 := by
  have hq : qNaN < 2 ^ 32 := by unfold qNaN; norm_num
  have h0 : (0 : Nat) < 2 ^ 32 := by norm_num
  have h1 : pack 1 0 < 2 ^ 32 := pack_lt 1 0 (le_refl 1) (Nat.zero_le _)
  have h2 := fun n => pack_lt 1 (roundMag n 1) (le_refl 1) (roundMag_le n 1)
  have h3 := fun n => pack_lt 0 (roundMag n 1) (Nat.zero_le 1) (roundMag_le n 1)
  unfold add
  split_ifs <;> first | assumption | exact h2 _ | exact h3 _

theorem mul_lt (a b : Nat) : mul a b < 2 ^ 32 := by
  have hq : qNaN < 2 ^ 32 := by unfold qNaN; norm_num
  have hs : (sign a + sign b) % 2 ≤ 1 := by omega
  unfold mul
  split_ifs
  · exact hq
  · exact hq
  · exact pack_lt _ _ hs (le_refl _)
  · exact pack_lt _ _ hs (roundMag_le _ _)

theorem sub_lt (a b : Nat) (ha : a < 2 ^ 32) : sub a b < 2 ^ 32 :=
  add_lt a (neg b) ha (neg_lt b)

end F32

theorem offsetOf_lt (d : Nat) : offsetOf d < 2 ^ 32 :=
  F32.sub_lt _ _ (F32.mul_lt _ _)

namespace WiiPlayRandomRack

/-- Every ball of a generated rack holds three 32-bit patterns. -/
theorem new_lt (seed : Nat) (b : Ball) (hb : b ∈ (new seed).balls_) :
    b.x_ < 2 ^ 32 ∧ b.y_ < 2 ^ 32 ∧ b.z_ < 2 ^ 32 := by
  rw [new_eq] at hb
  simp only [List.mem_cons, List.mem_singleton, List.not_mem_nil, or_false] at hb
  have key : ∀ (c : Ball) (x z : Nat), c.x_ < 2 ^ 32 → c.y_ < 2 ^ 32 → c.z_ < 2 ^ 32 →
      (c.apply_offset (offsetOf x) (offsetOf z)).x_ < 2 ^ 32 ∧
      (c.apply_offset (offsetOf x) (offsetOf z)).y_ < 2 ^ 32 ∧
      (c.apply_offset (offsetOf x) (offsetOf z)).z_ < 2 ^ 32 := by
    intro c x z h1 h2 h3
    exact ⟨F32.add_lt _ _ h1 (offsetOf_lt _), h2, F32.add_lt _ _ h3 (offsetOf_lt _)⟩
  rcases hb with h | h | h | h | h | h | h | h | h | h <;> rw [h]
  · decide
  all_goals exact key _ _ _ (by decide) (by decide) (by decide)

end WiiPlayRandomRack

/-! ## Baseline copy and restore -/

theorem CopyFromEmu_length (m : Mem) (a n : Nat) : (CopyFromEmu m a n).length = n := by
  unfold CopyFromEmu; simp

theorem CopyFromEmu_getD (m : Mem) (a n i : Nat) (h : i < n) :
    (CopyFromEmu m a n).getD i 0 = Read_U8 m (a + i) := by
  rw [List.getD_eq_getElem _ _ (by rw [CopyFromEmu_length]; exact h)]
  unfold CopyFromEmu
  simp

/-- Restoring a copy of a region gives back the bytes the copy was taken from. -/
theorem CopyToEmu_CopyFromEmu (m m0 : Mem) (a n p : Nat) (h1 : a ≤ p) (h2 : p < a + n) :
    CopyToEmu m a (CopyFromEmu m0 a n) p = Read_U8 m0 p := by
  unfold CopyToEmu
  rw [CopyFromEmu_length, if_pos ⟨h1, h2⟩, CopyFromEmu_getD _ _ _ _ (by omega)]
  have : a + (p - a) = p := by omega
  rw [this]
  unfold Read_U8
  exact Nat.mod_mod _ _

theorem inRackWords_inRegion (a : Nat) (h : inRackWords a = true) : inRegion a = true := by
  unfold inRackWords posAddr at h
  simp only [List.tail_cons, List.any_cons, List.any_nil, Bool.or_false, Bool.or_eq_true,
    decide_eq_true_eq] at h
  unfold inRegion
  simp only [decide_eq_true_eq]
  omega

namespace RackAttack

theorem Update_mem (r : RackAttack) (m : Mem) : (Update r m).next.mem = r.mem := by
  unfold Update
  by_cases h : idle r (BreakState.read m).zeroY > 3 <;> simp only [h, if_true, if_false]

theorem run_mem (ms : List Mem) : ∀ r : RackAttack, (run r ms).mem = r.mem := by
  induction ms with
  | nil => intro r; rfl
  | cons m ms ih => intro r; rw [run, ih, Update_mem]

theorem Update_memory (r : RackAttack) (m : Mem) :
    (Update r m).memory =
      if idle r (observe m) > 3 then
        writeRack (CopyToEmu m 0x91b4bf80 r.mem) (WiiPlayRandomRack.new r.seed)
      else m := by
  unfold Update observe
  by_cases h : idle r (BreakState.read m).zeroY > 3 <;> simp only [h, if_true, if_false]

theorem Update_seed (r : RackAttack) (m : Mem) :
    (Update r m).next.seed =
      if idle r (observe m) > 3 then (r.seed + 1) % 2 ^ 32 else r.seed := by
  unfold Update observe
  by_cases h : idle r (BreakState.read m).zeroY > 3 <;> simp only [h, if_true, if_false]

theorem Update_effects (r : RackAttack) (m : Mem) :
    (Update r m).effects =
      if idle r (observe m) > 3 then
        (if (observe m).score > r.best_score then [Effect.Save 10] else []) ++
          [Effect.OSD (observe m).score r.seed
              (if (observe m).score > r.best_score then (observe m).score else r.best_score),
            Effect.Log (observe m).sunkList (observe m).score r.seed]
      else [] := by
  unfold Update observe
  by_cases h : idle r (BreakState.read m).zeroY > 3 <;> simp only [h, if_true, if_false]

theorem resolved_iff (r : RackAttack) (m : Mem) :
    (Update r m).resolved = true ↔ idle r (observe m) > 3 := by
  rw [Update_resolved]; simp

theorem Update_best_le (r : RackAttack) (m : Mem) :
    r.best_score ≤ (Update r m).next.best_score := by
  rw [Update_best_score]
  split_ifs with h
  · exact le_of_lt h.2
  · exact le_refl _

theorem run_best_le (ms : List Mem) : ∀ r : RackAttack, r.best_score ≤ (run r ms).best_score := by
  induction ms with
  | nil => intro r; exact le_refl _
  | cons m ms ih => intro r; exact le_trans (Update_best_le r m) (ih _)

theorem run_concat (ms ms' : List Mem) :
    ∀ r : RackAttack, run r (ms ++ ms') = run (run r ms) ms' := by
  induction ms with
  | nil => intro r; rfl
  | cons m ms ih => intro r; exact ih _

end RackAttack

namespace PerfectBreak

theorem update_best_le (p : PerfectBreak) (pc : Nat) (m : Mem) :
    p.best_score ≤ (update p pc m).next.best_score := by
  unfold update
  by_cases h : pc = 0x802c4afc
  · simp only [h, if_true]
    split_ifs with c
    · exact le_of_lt c
    · exact le_refl _
  · simp only [h, if_false]; exact le_refl _

theorem runAll_best_le (es : List (Nat × Mem)) :
    ∀ p : PerfectBreak, p.best_score ≤ (runAll p es).best_score := by
  induction es with
  | nil => intro p; exact le_refl _
  | cons e es ih => intro p; exact le_trans (update_best_le p e.1 e.2) (ih _)

theorem runAll_append (es es' : List (Nat × Mem)) :
    ∀ p : PerfectBreak, runAll p (es ++ es') = runAll (runAll p es) es' := by
  induction es with
  | nil => intro p; rfl
  | cons e es ih => intro p; exact ih _

end PerfectBreak

/-- C11: `best_score` never decreases. In both controllers the value after an update is
at least the value before it, so along any sequence of updates (any program counters,
any memory contents) it is non-decreasing and, starting from 0, never below 0. -/
theorem C11_best_score_monotone :
    (∀ (p : PerfectBreak) (pc : Nat) (m : Mem),
      p.best_score ≤ (PerfectBreak.update p pc m).next.best_score) ∧
    (∀ (r : RackAttack) (m : Mem), r.best_score ≤ (RackAttack.Update r m).next.best_score) ∧
    (∀ (p : PerfectBreak) (es es' : List (Nat × Mem)),
      (PerfectBreak.runAll p es).best_score ≤ (PerfectBreak.runAll p (es ++ es')).best_score) ∧
    (∀ (r : RackAttack) (ms ms' : List Mem),
      (RackAttack.run r ms).best_score ≤ (RackAttack.run r (ms ++ ms')).best_score) ∧
    PerfectBreak.static.best_score = 0 ∧
    (∀ (r : RackAttack) (m : Mem), (RackAttack.Init r m).next.best_score = 0) ∧
    (∀ (m0 : Mem) (es : List (Nat × Mem)),
      0 ≤ (PerfectBreak.runAll (PerfectBreak.init PerfectBreak.static m0).next es).best_score) ∧
    (∀ (r : RackAttack) (m0 : Mem) (ms : List Mem),
      0 ≤ (RackAttack.run (RackAttack.Init r m0).next ms).best_score) := by
  refine ⟨PerfectBreak.update_best_le, RackAttack.Update_best_le, ?_, ?_, rfl, fun _ _ => rfl,
    ?_, ?_⟩
  · intro p es es'
    rw [PerfectBreak.runAll_append]
    exact PerfectBreak.runAll_best_le _ _
  · intro r ms ms'
    rw [RackAttack.run_concat]
    exact RackAttack.run_best_le _ _
  · intro m0 es
    exact PerfectBreak.runAll_best_le es _
  · intro r m0 ms
    exact RackAttack.run_best_le ms _

/-- C12: on a trap hit the score is the sum of the nine bytes read at the sunk addresses of
balls ONE to NINE; it does not depend on any other byte (the cue ball's count at
`0x91B4C7BB` included) and lies between 0 and `9 * 255 = 2295`. -/
theorem C12_trap_score (p : PerfectBreak) (m : Mem) :
    PerfectBreak.score m = (((sunkAddr.tail.map (Read_U8 m)).sum : Nat) : Int) ∧
    sunkAddr.head? = some 0x91B4C7BB ∧
    0 ≤ PerfectBreak.score m ∧ PerfectBreak.score m ≤ 2295 ∧ (2295 : Int) = 9 * 255 ∧
    PerfectBreak.score (fun _ => 255) = 2295 ∧
    (∀ m' : Mem, (∀ a ∈ sunkAddr.tail, Read_U8 m' a = Read_U8 m a) →
      PerfectBreak.score m' = PerfectBreak.score m) ∧
    (∀ v : Nat, PerfectBreak.score (fun a => if a = 0x91B4C7BB then v else m a) =
      PerfectBreak.score m) ∧
    Effect.Log (PerfectBreak.sunkList m) (PerfectBreak.score m) p.count ∈
      (PerfectBreak.update p 0x802c4afc m).effects ∧
    (PerfectBreak.update p 0x802c4afc m).next.best_score =
      max p.best_score (PerfectBreak.score m) := by
  have hsum : PerfectBreak.score m = (((sunkAddr.tail.map (Read_U8 m)).sum : Nat) : Int) := by
    unfold PerfectBreak.score sunkAddr
    simp only [List.tail_cons, List.map_cons, List.map_nil, List.sum_cons, List.sum_nil]
    push_cast
    ring
  have hb : ∀ a, Read_U8 m a ≤ 255 := fun a => by unfold Read_U8; omega
  refine ⟨hsum, rfl, PerfectBreak.score_nonneg m, ?_, by norm_num, by decide, ?_, ?_, ?_,
    (PerfectBreak.update_hit p m).1⟩
  · unfold PerfectBreak.score
    have h1 := hb 0x91b4cf7b
    have h2 := hb 0x91b4d6ab
    have h3 := hb 0x91b4dddb
    have h4 := hb 0x91b4e50b
    have h5 := hb 0x91b4ec3b
    have h6 := hb 0x91b4f36b
    have h7 := hb 0x91b4fa9b
    have h8 := hb 0x91b501cb
    have h9 := hb 0x91b508fb
    omega
  · intro m' h
    unfold PerfectBreak.score
    unfold sunkAddr at h
    simp only [List.tail_cons, List.mem_cons, List.mem_singleton, List.not_mem_nil, or_false,
      forall_eq_or_imp, forall_eq] at h
    obtain ⟨h1, h2, h3, h4, h5, h6, h7, h8, h9⟩ := h
    rw [h1, h2, h3, h4, h5, h6, h7, h8, h9]
  · intro v
    unfold PerfectBreak.score Read_U8
    simp
  · unfold PerfectBreak.update
    simp

/-- C13 fails on the code: the nine `uint32_t` sunk fields are added modulo `2 ^ 32` and
the sum is converted to `int`. With byte `0x80` at `0x91B4CF7E` (the top byte of the
four copied into `ONE.sunk`) the mathematical sum is `2 ^ 31` but the score reported on
resolution is `-2 ^ 31`. The score equals the mathematical sum only below `2 ^ 31`. -/
theorem C13_score_wraps_negative :
    (∀ s : BreakState, s.score =
      toInt32 ((s.ONE.sunk + s.TWO.sunk + s.THREE.sunk + s.FOUR.sunk + s.FIVE.sunk +
        s.SIX.sunk + s.SEVEN.sunk + s.EIGHT.sunk + s.NINE.sunk) % 2 ^ 32)) ∧
    (∀ s : BreakState, s.sunkList.sum < 2 ^ 31 → s.score = ((s.sunkList.sum : Nat) : Int)) ∧
    (RackAttack.observe (fun a => if a = 0x91B4CF7E then 0x80 else 0)).sunkList =
      [2147483648, 0, 0, 0, 0, 0, 0, 0, 0] ∧
    (RackAttack.observe (fun a => if a = 0x91B4CF7E then 0x80 else 0)).score = -2147483648 ∧
    ((RackAttack.trace (RackAttack.Init RackAttack.static (fun _ => 0)).next
        (List.replicate 5 (fun a => if a = 0x91B4CF7E then 0x80 else 0))).map
        (fun s => s.effects.take 1)) =
      [[], [], [], [], [Effect.OSD (-2147483648) 0 0]] := by
  refine ⟨fun _ => rfl, ?_, by decide!, by decide!, by decide!⟩
  intro s h
  have hs : s.sunkList.sum = s.ONE.sunk + s.TWO.sunk + s.THREE.sunk + s.FOUR.sunk +
      s.FIVE.sunk + s.SIX.sunk + s.SEVEN.sunk + s.EIGHT.sunk + s.NINE.sunk := by
    unfold BreakState.sunkList
    simp only [List.sum_cons, List.sum_nil]
    omega
  unfold BreakState.score
  rw [hs] at h ⊢
  generalize s.ONE.sunk + s.TWO.sunk + s.THREE.sunk + s.FOUR.sunk + s.FIVE.sunk + s.SIX.sunk +
    s.SEVEN.sunk + s.EIGHT.sunk + s.NINE.sunk = t at h ⊢
  unfold toInt32
  have h2 : (2 : Nat) ^ 32 = 4294967296 := by norm_num
  have h3 : (2 : Nat) ^ 31 = 2147483648 := by norm_num
  rw [h2, h3] at *
  split_ifs <;> omega

namespace WiiPlayRandomRack

/-- Balls 1 to 9 of a generated rack exist and hold 32-bit patterns. -/
theorem GetBall_new (seed : Nat) (j : Fin 9) :
    ∃ b : Ball, (new seed).GetBall (j.val + 1) = some b ∧
      b.x_ < 2 ^ 32 ∧ b.y_ < 2 ^ 32 ∧ b.z_ < 2 ^ 32 := by
  have h : ∃ b : Ball, (new seed).GetBall (j.val + 1) = some b := by
    rw [new_eq]
    fin_cases j <;> exact ⟨_, rfl⟩
  obtain ⟨b, hb⟩ := h
  exact ⟨b, hb, new_lt seed b (List.get?_mem hb)⟩

end WiiPlayRandomRack

/-- The position words of ball `j + 1` after a rack was written hold its patterns. -/
theorem Read_U32_writeRack_new (m : Mem) (seed : Nat) (j : Fin 9) :
    ∃ b : Ball, (WiiPlayRandomRack.new seed).GetBall (j.val + 1) = some b ∧
      Read_U32 (writeRack m (WiiPlayRandomRack.new seed)) (posAddr.getD (j.val + 1) 0) = b.x_ ∧
      Read_U32 (writeRack m (WiiPlayRandomRack.new seed)) (posAddr.getD (j.val + 1) 0 + 4) =
        b.y_ ∧
      Read_U32 (writeRack m (WiiPlayRandomRack.new seed)) (posAddr.getD (j.val + 1) 0 + 8) =
        b.z_ := by
  obtain ⟨b, hb, hx, hy, hz⟩ := WiiPlayRandomRack.GetBall_new seed j
  obtain ⟨r1, r2, r3⟩ := Read_U32_writeRack m _ j b hb
  rw [Nat.mod_eq_of_lt hx] at r1
  rw [Nat.mod_eq_of_lt hy] at r2
  rw [Nat.mod_eq_of_lt hz] at r3
  exact ⟨b, hb, r1, r2, r3⟩

/-- C14: on every trap hit `PerfectBreak::update` stores, for each numbered ball, the
`x`, `y`, `z` patterns of that ball of `WiiPlayRandomRack(c)` in its three position words,
`c` being `count` after the increment; every other byte (the cue ball's position included)
is as in the restored save state; the next trap hit records `c` as `best_seed` when it
improves the best. -/
theorem C14_trap_writes_rack (p : PerfectBreak) (m : Mem) (j : Fin 9) :
    (PerfectBreak.update p 0x802c4afc m).next.count = (p.count + 1) % 2 ^ 32 ∧
    (∃ b : Ball,
      (WiiPlayRandomRack.new (PerfectBreak.update p 0x802c4afc m).next.count).GetBall
        (j.val + 1) = some b ∧
      Read_U32 (PerfectBreak.update p 0x802c4afc m).memory (posAddr.getD (j.val + 1) 0) = b.x_ ∧
      Read_U32 (PerfectBreak.update p 0x802c4afc m).memory (posAddr.getD (j.val + 1) 0 + 4) =
        b.y_ ∧
      Read_U32 (PerfectBreak.update p 0x802c4afc m).memory (posAddr.getD (j.val + 1) 0 + 8) =
        b.z_) ∧
    (∀ a : Nat, inRackWords a = false →
      (PerfectBreak.update p 0x802c4afc m).memory a = p.state a) ∧
    (∀ a : Nat, posAddr.getD 0 0 ≤ a → a < posAddr.getD 0 0 + 12 → inRackWords a = false) ∧
    (∀ m2 : Mem, PerfectBreak.score m2 > (PerfectBreak.update p 0x802c4afc m).next.best_score →
      (PerfectBreak.update (PerfectBreak.update p 0x802c4afc m).next 0x802c4afc m2).next.best_seed
        = (p.count + 1) % 2 ^ 32) := by
  have hm : (PerfectBreak.update p 0x802c4afc m).memory =
      writeRack p.state (WiiPlayRandomRack.new ((p.count + 1) % 2 ^ 32)) := rfl
  have hc : (PerfectBreak.update p 0x802c4afc m).next.count = (p.count + 1) % 2 ^ 32 := rfl
  refine ⟨hc, ?_, ?_, ?_, ?_⟩
  · rw [hm, hc]
    exact Read_U32_writeRack_new _ _ j
  · intro a ha
    rw [hm]
    exact writeRack_other _ _ a ha
  · intro a h1 h2
    unfold posAddr at h1 h2
    simp only [List.getD_cons_zero] at h1 h2
    unfold inRackWords posAddr
    simp only [List.tail_cons, List.any_cons, List.any_nil, Bool.or_false, Bool.or_eq_false_iff,
      decide_eq_false_iff_not, not_and, not_lt]
    omega
  · intro m2 h
    rw [(PerfectBreak.update_hit _ m2).2.1, if_pos h, hc]

/-- C15 fails on the code: `WiiPlayRandomRack rack(seed++)` builds the rack from the seed
held before the increment. From `Init`, the fourth poll of an idle table resolves,
leaves `seed = 1` and stores ball 1 of `WiiPlayRandomRack(0)`, not of
`WiiPlayRandomRack(1)`; the trial run on that layout is then reported with seed 1. -/
theorem C15_rack_uses_old_seed :
    (∀ (r : RackAttack) (m : Mem), (RackAttack.Update r m).resolved = true →
      (RackAttack.Update r m).memory =
        writeRack (CopyToEmu m 0x91b4bf80 r.mem) (WiiPlayRandomRack.new r.seed) ∧
      (RackAttack.Update r m).next.seed = (r.seed + 1) % 2 ^ 32) ∧
    (RackAttack.trace (RackAttack.Init RackAttack.static (fun _ => 0)).next
        (List.replicate 4 (fun _ => 0))).map
        (fun s => (s.resolved, s.next.seed, Read_U32 s.memory 0x91B4D07C)) =
      [(false, 0, 0), (false, 0, 0), (false, 0, 0), (true, 1, 1111977119)] ∧
    (WiiPlayRandomRack.new 0).GetBall 1 = some ⟨1111977119, 1077426520, 3188940780⟩ ∧
    (WiiPlayRandomRack.new 1).GetBall 1 = some ⟨1111977120, 1077426520, 3185932986⟩ ∧
    (RackAttack.trace (RackAttack.Init RackAttack.static (fun _ => 0)).next
        (List.replicate 4 (fun _ => 0) ++ List.replicate 5 (sunkOne 1))).map
        (fun s => s.effects.take 2) =
      [[], [], [], [Effect.OSD 0 0 0, Effect.Log [0, 0, 0, 0, 0, 0, 0, 0, 0] 0 0],
       [], [], [], [], [Effect.Save 10, Effect.OSD 1 1 1]] := by
  refine ⟨?_, by decide!, by decide!, by decide!, by decide!⟩
  intro r m h
  have hi := (RackAttack.resolved_iff r m).1 h
  rw [RackAttack.Update_memory, RackAttack.Update_seed, if_pos hi, if_pos hi]
  exact ⟨rfl, rfl⟩

/-- C16 fails as stated at the end of the 32-bit range: a trap hit with
`count = 0xFFFFFFFF`, or a resolution with `seed = 0xFFFFFFFF`, leaves the counter at 0. -/
theorem C16_counter_wraps :
    (PerfectBreak.update ⟨fun _ => 0, 4294967295, 0, 0⟩ 0x802c4afc (fun _ => 0)).next.count = 0 ∧
    (RackAttack.Update { RackAttack.static with seed := 4294967295, frames_idle := 3 }
      (fun _ => 0)).resolved = true ∧
    (RackAttack.Update { RackAttack.static with seed := 4294967295, frames_idle := 3 }
      (fun _ => 0)).next.seed = 0 := by
  decide!

namespace RackAttack

/-- After a run the seed is its start value plus the number of resolutions, modulo
`2 ^ 32`. -/
theorem run_seed (ms : List Mem) : ∀ r : RackAttack, r.seed < 2 ^ 32 →
    (run r ms).seed = (r.seed + ((trace r ms).filter Step.resolved).length) % 2 ^ 32 := by
  induction ms with
  | nil =>
    intro r h
    simp only [run, trace, List.filter_nil, List.length_nil, Nat.add_zero]
    exact (Nat.mod_eq_of_lt h).symm
  | cons m ms ih =>
    intro r h
    have hs := Update_seed r m
    have hr := Update_resolved r m
    by_cases c : idle r (observe m) > 3
    · rw [if_pos c] at hs
      simp only [c, decide_True] at hr
      rw [run, trace, List.filter_cons, hr, if_pos rfl, List.length_cons,
        ih _ (by rw [hs]; exact Nat.mod_lt _ (by norm_num)), hs]
      omega
    · rw [if_neg c] at hs
      simp only [c, decide_False] at hr
      rw [run, trace, List.filter_cons, hr, if_neg (by simp), ih _ (by rw [hs]; exact h), hs]

end RackAttack

/-- C16 (as the code behaves): each resolving update adds 1 to the controller's 32-bit
counter modulo `2 ^ 32`; it is exactly `+ 1` below `0xFFFFFFFF`. From origin 0 the counter
after `k` resolved trials is `k mod 2 ^ 32`, hence `k` itself, and strictly increasing,
over the first `2 ^ 32 - 1` trials. -/
theorem C16_counter_increment :
    (∀ (p : PerfectBreak) (m : Mem),
      (PerfectBreak.update p 0x802c4afc m).next.count = (p.count + 1) % 2 ^ 32 ∧
      (p.count < 2 ^ 32 - 1 → (PerfectBreak.update p 0x802c4afc m).next.count = p.count + 1)) ∧
    (∀ (r : RackAttack) (m : Mem), (RackAttack.Update r m).resolved = true →
      (RackAttack.Update r m).next.seed = (r.seed + 1) % 2 ^ 32 ∧
      (r.seed < 2 ^ 32 - 1 → (RackAttack.Update r m).next.seed = r.seed + 1)) ∧
    (∀ (st : Mem) (ms : List Mem),
      (PerfectBreak.run ⟨st, 0, 0, 0⟩ ms).count = ms.length % 2 ^ 32 ∧
      (ms.length < 2 ^ 32 → (PerfectBreak.run ⟨st, 0, 0, 0⟩ ms).count = ms.length)) ∧
    (∀ (r : RackAttack) (m0 : Mem) (ms : List Mem),
      (RackAttack.run (RackAttack.Init r m0).next ms).seed =
        ((RackAttack.trace (RackAttack.Init r m0).next ms).filter Step.resolved).length
          % 2 ^ 32 ∧
      (((RackAttack.trace (RackAttack.Init r m0).next ms).filter Step.resolved).length < 2 ^ 32 →
        (RackAttack.run (RackAttack.Init r m0).next ms).seed =
          ((RackAttack.trace (RackAttack.Init r m0).next ms).filter Step.resolved).length)) := by
  refine ⟨?_, ?_, ?_, ?_⟩
  · intro p m
    have h := (PerfectBreak.update_hit p m).2.2.1
    refine ⟨h, fun hlt => ?_⟩
    rw [h]; exact Nat.mod_eq_of_lt (by omega)
  · intro r m hr
    have hi := (RackAttack.resolved_iff r m).1 hr
    have h := RackAttack.Update_seed r m
    rw [if_pos hi] at h
    refine ⟨h, fun hlt => ?_⟩
    rw [h]; exact Nat.mod_eq_of_lt (by omega)
  · intro st ms
    have h := (PerfectBreak.run_spec st ms).1
    refine ⟨h, fun hlt => ?_⟩
    rw [h]; exact Nat.mod_eq_of_lt hlt
  · intro r m0 ms
    have h0 : (RackAttack.Init r m0).next.seed = 0 := rfl
    have h := RackAttack.run_seed ms (RackAttack.Init r m0).next (by rw [h0]; norm_num)
    rw [h0, Nat.zero_add] at h
    refine ⟨h, fun hlt => ?_⟩
    rw [h]; exact Nat.mod_eq_of_lt hlt

/-- C17: rollback discipline of `RackAttack`. On every resolving update, whatever the
score, emulated memory becomes the region copy `mem` taken by `Init` restored at
`0x91b4bf80` with the new rack written on top; every byte of the `0x6600`-byte region
outside the 27 position words of balls ONE to NINE (the cue ball's position and the ten
sunk counts included) equals the baseline byte, the 27 words lie inside the region, and
`Update` never modifies `mem`. -/
theorem C17_rollback (r0 : RackAttack) (m0 : Mem) (ms : List Mem) (m : Mem)
    (h : (RackAttack.Update (RackAttack.run (RackAttack.Init r0 m0).next ms) m).resolved = true) :
    (RackAttack.run (RackAttack.Init r0 m0).next ms).mem = CopyFromEmu m0 0x91b4bf80 0x6600 ∧
    (RackAttack.Update (RackAttack.run (RackAttack.Init r0 m0).next ms) m).memory =
      writeRack (CopyToEmu m 0x91b4bf80 (CopyFromEmu m0 0x91b4bf80 0x6600))
        (WiiPlayRandomRack.new (RackAttack.run (RackAttack.Init r0 m0).next ms).seed) ∧
    (∀ a : Nat, inRegion a = true → inRackWords a = false →
      (RackAttack.Update (RackAttack.run (RackAttack.Init r0 m0).next ms) m).memory a =
        Read_U8 m0 a) ∧
    (∀ a : Nat, inRackWords a = true → inRegion a = true) ∧
    (∀ a : Nat, posAddr.getD 0 0 ≤ a → a < posAddr.getD 0 0 + 12 →
      inRegion a = true ∧ inRackWords a = false) ∧
    (∀ s ∈ sunkAddr, ∀ a : Nat, s ≤ a → a < s + 4 → inRegion a = true ∧ inRackWords a = false) ∧
    (∀ (r : RackAttack) (m' : Mem), (RackAttack.Update r m').next.mem = r.mem) := by
  have hmem : (RackAttack.run (RackAttack.Init r0 m0).next ms).mem =
      CopyFromEmu m0 0x91b4bf80 0x6600 := by
    rw [RackAttack.run_mem]; simp only [RackAttack.Init]
  have hi := (RackAttack.resolved_iff _ m).1 h
  have hmm : (RackAttack.Update (RackAttack.run (RackAttack.Init r0 m0).next ms) m).memory =
      writeRack (CopyToEmu m 0x91b4bf80 (CopyFromEmu m0 0x91b4bf80 0x6600))
        (WiiPlayRandomRack.new (RackAttack.run (RackAttack.Init r0 m0).next ms).seed) := by
    rw [RackAttack.Update_memory, if_pos hi, hmem]
  refine ⟨hmem, hmm, ?_, inRackWords_inRegion, ?_, ?_, RackAttack.Update_mem⟩
  · intro a h1 h2
    rw [hmm, writeRack_other _ _ a h2]
    unfold inRegion at h1
    simp only [decide_eq_true_eq] at h1
    exact CopyToEmu_CopyFromEmu _ _ _ _ _ h1.1 h1.2
  · intro a h1 h2
    unfold posAddr at h1 h2
    simp only [List.getD_cons_zero] at h1 h2
    unfold inRegion inRackWords posAddr
    simp only [List.tail_cons, List.any_cons, List.any_nil, Bool.or_false, Bool.or_eq_false_iff,
      decide_eq_false_iff_not, not_and, not_lt, decide_eq_true_eq]
    omega
  · intro s hs a h1 h2
    unfold sunkAddr at hs
    simp only [List.mem_cons, List.mem_singleton, List.not_mem_nil, or_false] at hs
    unfold inRegion inRackWords posAddr
    simp only [List.tail_cons, List.any_cons, List.any_nil, Bool.or_false, Bool.or_eq_false_iff,
      decide_eq_false_iff_not, not_and, not_lt, decide_eq_true_eq]
    omega

/-- Witness of C17: from `Init` on blank memory the fourth poll resolves. -/
theorem C17_rollback_witness :
    (RackAttack.Update
      (RackAttack.run (RackAttack.Init RackAttack.static (sunkOne 3)).next
        [fun _ => 0, fun _ => 0, fun _ => 0]) (fun _ => 0)).resolved = true ∧
    (RackAttack.Update
      (RackAttack.run (RackAttack.Init RackAttack.static (sunkOne 3)).next
        [fun _ => 0, fun _ => 0, fun _ => 0]) (fun _ => 0)).memory 0x91b4cf7b = 3 :=
  ⟨by decide!,
    ((C17_rollback RackAttack.static (sunkOne 3) [fun _ => 0, fun _ => 0, fun _ => 0]
      (fun _ => 0) (by decide!)).2.2.1 0x91b4cf7b (by decide!) (by decide!)).trans
      (by decide!)⟩

namespace RackAttack

/-- While the idle counter is too low for the remaining updates to reach 4, none of them
resolves. -/
theorem trace_quiet (ms : List Mem) : ∀ r : RackAttack,
    r.frames_idle + ms.length ≤ 3 → ms.length ≤ 4 →
    ∀ s ∈ trace r ms, s.resolved = false := by
  induction ms with
  | nil => intro r _ _ s hs; simp [trace] at hs
  | cons m ms ih =>
    intro r h1 h2 s hs
    simp only [List.length_cons] at h1 h2
    have hi : ¬ idle r (observe m) > 3 := by
      unfold idle; split_ifs <;> omega
    have hr : (Update r m).resolved = false := by rw [Update_resolved]; simp [hi]
    have hf := Update_frames_idle r m
    rw [if_neg hi] at hf
    simp only [trace, List.mem_cons] at hs
    rcases hs with h | h
    · rw [h]; exact hr
    · refine ih _ ?_ (by omega) s h
      rw [hf]; unfold idle; split_ifs <;> push_cast at h1 ⊢ <;> omega

theorem trace_append (ms ms' : List Mem) :
    ∀ r : RackAttack, trace r (ms ++ ms') = trace r ms ++ trace (run r ms) ms' := by
  induction ms with
  | nil => intro r; rfl
  | cons m ms ih =>
    intro r
    show Update r m :: trace (Update r m).next (ms ++ ms') = _
    rw [ih]
    rfl

theorem trace_after_resolution (r : RackAttack) (m : Mem) (hf : r.frames_idle = -1)
    (hl : r.last_state = observe m) :
    (trace r (List.replicate 5 m)).map Step.resolved = [false, false, false, false, true] := by
  simp [List.replicate, trace, Update_resolved, idle, Update_last_state, Update_frames_idle,
    hf, hl]

end RackAttack

/-- C18: the poll-based detector never re-triggers immediately. After a resolving update
`frames_idle` is -1 and none of the next 4 updates resolves, whatever they observe; so
between two resolving updates there are at least 4 other updates. -/
theorem C18_no_retrigger (r : RackAttack) (m : Mem) (ms : List Mem)
    (h : (RackAttack.Update r m).resolved = true) :
    (RackAttack.Update r m).next.frames_idle = -1 ∧
    (ms.length ≤ 4 → ∀ s ∈ RackAttack.trace (RackAttack.Update r m).next ms,
      s.resolved = false) ∧
    (∀ m2 : Mem,
      (RackAttack.Update (RackAttack.run (RackAttack.Update r m).next ms) m2).resolved = true →
      4 ≤ ms.length) ∧
    (RackAttack.trace (RackAttack.Update r m).next (List.replicate 5 m)).map Step.resolved =
      [false, false, false, false, true] := by
  have hi := (RackAttack.resolved_iff r m).1 h
  have hf : (RackAttack.Update r m).next.frames_idle = -1 := by
    rw [RackAttack.Update_frames_idle, if_pos hi]
  have hq : ms.length ≤ 4 → ∀ s ∈ RackAttack.trace (RackAttack.Update r m).next ms,
      s.resolved = false := by
    intro hl
    exact RackAttack.trace_quiet ms _ (by rw [hf]; omega) hl
  refine ⟨hf, hq, ?_, ?_⟩
  · intro m2 h2
    by_contra hc
    have hl : (ms ++ [m2]).length ≤ 4 := by simp; omega
    have hall := RackAttack.trace_quiet (ms ++ [m2]) (RackAttack.Update r m).next
      (by rw [hf]; omega) hl
    have hmem : RackAttack.Update (RackAttack.run (RackAttack.Update r m).next ms) m2 ∈
        RackAttack.trace (RackAttack.Update r m).next (ms ++ [m2]) := by
      rw [RackAttack.trace_append]
      simp [RackAttack.trace]
    rw [hall _ hmem] at h2
    exact Bool.false_ne_true h2
  · exact RackAttack.trace_after_resolution _ m hf (RackAttack.Update_last_state r m)

/-- Witness of C18: from `Init` on blank memory the fourth poll resolves, and the four
polls after it do not. -/
theorem C18_no_retrigger_witness :
    (RackAttack.Update
      (RackAttack.run (RackAttack.Init RackAttack.static (fun _ => 0)).next
        [fun _ => 0, fun _ => 0, fun _ => 0]) (fun _ => 0)).resolved = true ∧
    ∀ s ∈ RackAttack.trace
      (RackAttack.Update
        (RackAttack.run (RackAttack.Init RackAttack.static (fun _ => 0)).next
          [fun _ => 0, fun _ => 0, fun _ => 0]) (fun _ => 0)).next
      [fun _ => 0, fun _ => 0, fun _ => 0, fun _ => 0], s.resolved = false :=
  ⟨by decide!,
    (C18_no_retrigger
      (RackAttack.run (RackAttack.Init RackAttack.static (fun _ => 0)).next
        [fun _ => 0, fun _ => 0, fun _ => 0]) (fun _ => 0)
      [fun _ => 0, fun _ => 0, fun _ => 0, fun _ => 0] (by decide!)).2.1 (le_refl 4)⟩

/-- C19: an update that does not resolve a shot changes no search state.
`PerfectBreak::update` away from the breakpoint leaves its statics and emulated memory
unchanged and requests no save or restore. `RackAttack::Update` whose `frames_idle`, as
tested by `frames_idle > 3`, is at most 3 changes only `frames_idle` and `last_state`,
leaves emulated memory unchanged and asks nothing of the host. -/
theorem C19_non_resolving_frame :
    (∀ (p : PerfectBreak) (pc : Nat) (m : Mem), pc ≠ 0x802c4afc →
      (PerfectBreak.update p pc m).next = p ∧ (PerfectBreak.update p pc m).memory = m ∧
      (PerfectBreak.update p pc m).effects = [Effect.ThrottlerTempDisabled] ∧
      (PerfectBreak.update p pc m).resolved = false ∧
      (PerfectBreak.update p pc m).saved = false) ∧
    (∀ (r : RackAttack) (m : Mem),
      ((RackAttack.Update r m).resolved = false ↔ RackAttack.idle r (RackAttack.observe m) ≤ 3)) ∧
    (∀ (r : RackAttack) (m : Mem), RackAttack.idle r (RackAttack.observe m) ≤ 3 →
      (RackAttack.Update r m).next =
        { r with frames_idle := RackAttack.idle r (RackAttack.observe m),
                 last_state := RackAttack.observe m } ∧
      (RackAttack.Update r m).next.seed = r.seed ∧
      (RackAttack.Update r m).next.best_score = r.best_score ∧
      (RackAttack.Update r m).next.best_seed = r.best_seed ∧
      (RackAttack.Update r m).next.mem = r.mem ∧
      (RackAttack.Update r m).memory = m ∧
      (RackAttack.Update r m).effects = [] ∧
      (RackAttack.Update r m).saved = false) ∧
    (PerfectBreak.update PerfectBreak.static 0x802c4af8 (sunkOne 9)).next.best_score = 0 ∧
    (RackAttack.Update RackAttack.static (sunkOne 9)).next.frames_idle = 0 ∧
    (RackAttack.Update RackAttack.static (sunkOne 9)).next.seed = 0 := by
  refine ⟨?_, ?_, ?_, by decide!, by decide!, by decide!⟩
  · intro p pc m h
    simp [h, Step.resolved, Step.saved, PerfectBreak.update]
  · intro r m
    rw [RackAttack.Update_resolved]
    simp
  · intro r m h
    have hi : ¬ RackAttack.idle r (RackAttack.observe m) > 3 := not_lt.2 h
    have hn : (RackAttack.Update r m).next =
        { r with frames_idle := RackAttack.idle r (RackAttack.observe m),
                 last_state := RackAttack.observe m } := by
      unfold RackAttack.observe at hi ⊢
      unfold RackAttack.Update
      simp only [hi, if_false]
    refine ⟨hn, ?_, ?_, RackAttack.Update_best_seed r m, RackAttack.Update_mem r m, ?_, ?_, ?_⟩
    · rw [RackAttack.Update_seed, if_neg hi]
    · rw [RackAttack.Update_best_score, if_neg (fun c => hi c.1)]
    · rw [RackAttack.Update_memory, if_neg hi]
    · rw [RackAttack.Update_effects, if_neg hi]
    · rw [RackAttack.Update_saved]; simp [hi]

namespace RackAttack

/-- The idle counter stays between -1 and 3 along every run from `Init`. -/
theorem run_frames_idle (ms : List Mem) : ∀ r : RackAttack,
    -1 ≤ r.frames_idle → r.frames_idle ≤ 3 →
    -1 ≤ (run r ms).frames_idle ∧ (run r ms).frames_idle ≤ 3 := by
  induction ms with
  | nil => intro r h1 h2; exact ⟨h1, h2⟩
  | cons m ms ih =>
    intro r h1 h2
    have hf := Update_frames_idle r m
    refine ih _ ?_ ?_ <;> rw [hf] <;> unfold idle <;> split_ifs <;> omega

end RackAttack

/-- C20: idle-counter invariant. After `Init` and after every `Update`, for any
observation stream, `-1 ≤ frames_idle ≤ 3`; `frames_idle` is -1 after an update exactly
when that update resolved a shot, and an update resolves exactly when `frames_idle` was 3
before it and the new normalised observation equals `last_state`. -/
theorem C20_idle_invariant (r0 : RackAttack) (m0 : Mem) (ms : List Mem) (m : Mem) :
    (RackAttack.Init r0 m0).next.frames_idle = 0 ∧
    -1 ≤ (RackAttack.run (RackAttack.Init r0 m0).next ms).frames_idle ∧
    (RackAttack.run (RackAttack.Init r0 m0).next ms).frames_idle ≤ 3 ∧
    ((RackAttack.Update (RackAttack.run (RackAttack.Init r0 m0).next ms) m).next.frames_idle = -1
      ↔ (RackAttack.Update (RackAttack.run (RackAttack.Init r0 m0).next ms) m).resolved = true) ∧
    ((RackAttack.Update (RackAttack.run (RackAttack.Init r0 m0).next ms) m).resolved = true ↔
      (RackAttack.run (RackAttack.Init r0 m0).next ms).frames_idle = 3 ∧
      (RackAttack.run (RackAttack.Init r0 m0).next ms).last_state = RackAttack.observe m) := by
  have h0 : (RackAttack.Init r0 m0).next.frames_idle = 0 := rfl
  obtain ⟨h1, h2⟩ := RackAttack.run_frames_idle ms (RackAttack.Init r0 m0).next
    (by rw [h0]; norm_num) (by rw [h0]; norm_num)
  generalize RackAttack.run (RackAttack.Init r0 m0).next ms = r at h1 h2 ⊢
  refine ⟨h0, h1, h2, ?_, ?_⟩
  · rw [RackAttack.Update_frames_idle, RackAttack.resolved_iff]
    have hp : 0 ≤ RackAttack.idle r (RackAttack.observe m) := by
      unfold RackAttack.idle; split_ifs <;> omega
    generalize RackAttack.idle r (RackAttack.observe m) = i at hp ⊢
    by_cases d : i > 3
    · simp only [d, if_true]
    · simp only [d, if_false, iff_false]; omega
  · rw [RackAttack.resolved_iff]
    unfold RackAttack.idle
    constructor
    · intro h
      split_ifs at h with c
      · exact ⟨by omega, c⟩
      · omega
    · rintro ⟨h3, h4⟩
      rw [if_pos h4]; omega

/-! ## The generator step is a permutation -/

namespace WiiPlayRandomFloat

/-- Undoing one step: the multiplier 69069 has the inverse 2783094533 modulo `2 ^ 32`. -/
theorem step_left_inv (s : Nat) (hs : s < 2 ^ 32) :
    ((s * 69069 + 1) % 2 ^ 32 + (2 ^ 32 - 1)) * 2783094533 % 2 ^ 32 = s := by
  have h1 : ((s * 69069 + 1) % 2 ^ 32 + (2 ^ 32 - 1)) * 2783094533 ≡
      (s * 69069 + 1 + (2 ^ 32 - 1)) * 2783094533 [MOD 2 ^ 32] :=
    ((Nat.mod_modEq _ _).add_right _).mul_right _
  have h2 : (s * 69069 + 1 + (2 ^ 32 - 1)) * 2783094533 =
      s + 2 ^ 32 * (s * 44756 + 2783094533) := by
    norm_num
    ring
  have h3 : s + 2 ^ 32 * (s * 44756 + 2783094533) ≡ s [MOD 2 ^ 32] := by
    unfold Nat.ModEq
    rw [Nat.add_mul_mod_self_left]
  rw [h2] at h1
  have h4 := h1.trans h3
  unfold Nat.ModEq at h4
  rw [h4, Nat.mod_eq_of_lt hs]

theorem step_inj (s t : Nat) (hs : s < 2 ^ 32) (ht : t < 2 ^ 32)
    (h : (s * 69069 + 1) % 2 ^ 32 = (t * 69069 + 1) % 2 ^ 32) : s = t := by
  rw [← step_left_inv s hs, ← step_left_inv t ht, h]

/-- Redoing one step after undoing it. -/
theorem step_right_inv (y : Nat) (hy : y < 2 ^ 32) :
    (((y + (2 ^ 32 - 1)) * 2783094533 % 2 ^ 32) * 69069 + 1) % 2 ^ 32 = y := by
  have h1 : ((y + (2 ^ 32 - 1)) * 2783094533 % 2 ^ 32) * 69069 + 1 ≡
      (y + (2 ^ 32 - 1)) * 2783094533 * 69069 + 1 [MOD 2 ^ 32] :=
    ((Nat.mod_modEq _ _).mul_right _).add_right _
  have h2 : (y + (2 ^ 32 - 1)) * 2783094533 * 69069 + 1 =
      y + 2 ^ 32 * (y * 44756 + 192225556255021) := by
    norm_num
    ring
  have h3 : y + 2 ^ 32 * (y * 44756 + 192225556255021) ≡ y [MOD 2 ^ 32] := by
    unfold Nat.ModEq
    rw [Nat.add_mul_mod_self_left]
  rw [h2] at h1
  have h4 := h1.trans h3
  unfold Nat.ModEq at h4
  rw [h4, Nat.mod_eq_of_lt hy]

theorem after_lt (s k : Nat) : ((new s).after k).seed_ < 2 ^ 32 := by
  cases k with
  | zero => exact Nat.mod_lt _ (by norm_num)
  | succ k => exact Nat.mod_lt _ (by norm_num)

theorem after_succ (g : WiiPlayRandomFloat) (k : Nat) :
    (g.after (k + 1)).seed_ = ((g.after k).seed_ * 69069 + 1) % 2 ^ 32 := rfl

/-- Generators that coincide after the same number of draws were seeded alike. -/
theorem after_inj (s t : Nat) : ∀ k : Nat,
    ((new s).after k).seed_ = ((new t).after k).seed_ → s % 2 ^ 32 = t % 2 ^ 32 := by
  intro k
  induction k with
  | zero => intro h; exact h
  | succ k ih =>
    intro h
    rw [after_succ, after_succ] at h
    exact ih (step_inj _ _ (after_lt s k) (after_lt t k) h)

theorem shift_and (v : Nat) (hv : v < 2 ^ 32) : (v >>> 16) &&& 0xffff = v / 2 ^ 16 := by
  have e : (v >>> 16) &&& (2 ^ 16 - 1) = v / 2 ^ 16 := by
    rw [Nat.and_pow_two_sub_one_eq_mod, Nat.shiftRight_eq_div_pow]
    apply Nat.mod_eq_of_lt
    rw [Nat.div_lt_iff_lt_mul (by norm_num)]
    calc v < 2 ^ 32 := hv
      _ = 2 ^ 16 * 2 ^ 16 := by norm_num
  exact e

/-- The 16 bits of a draw are the upper half of the new state. -/
theorem bits16_eq_div (g : WiiPlayRandomFloat) (k : Nat) :
    (g.after k).bits16 = (g.after (k + 1)).seed_ / 2 ^ 16 :=
  shift_and _ (Nat.mod_lt _ (by norm_num))

theorem draw_ne (g h : WiiPlayRandomFloat) (k : Nat)
    (hb : (g.after k).bits16 ≠ (h.after k).bits16) : g.draw (k + 1) ≠ h.draw (k + 1) := by
  intro he
  unfold draw at he
  simp only [Nat.add_sub_cancel] at he
  have h1 := random_toRat (g.after k)
  have h2 := random_toRat (h.after k)
  rw [he, h2] at h1
  have h3 : ((h.after k).bits16 : ℚ) = ((g.after k).bits16 : ℚ) := by
    have := congrArg (fun q : ℚ => q * 65536) h1
    simpa using this
  exact hb (by exact_mod_cast h3.symm)

/-- Lifting the exponent: `69069 = 1 mod 4`, so `69069 ^ (2 ^ i) = 1 mod 2 ^ (i + 2)`. -/
theorem pow_two_pow_sub_one (i : Nat) : (2 : Int) ^ (i + 2) ∣ (69069 : Int) ^ (2 ^ i) - 1 := by
  induction i with
  | zero => norm_num
  | succ i ih =>
    have e : (69069 : Int) ^ (2 ^ (i + 1)) - 1 =
        ((69069 : Int) ^ (2 ^ i) - 1) * ((69069 : Int) ^ (2 ^ i) + 1) := by
      rw [pow_succ 2 i, pow_mul]; ring
    have h1 : (2 : Int) ∣ (69069 : Int) ^ (2 ^ i) - 1 :=
      dvd_trans (dvd_pow_self 2 (by omega)) ih
    have h2 : (2 : Int) ∣ (69069 : Int) ^ (2 ^ i) + 1 := by
      have : (69069 : Int) ^ (2 ^ i) + 1 = ((69069 : Int) ^ (2 ^ i) - 1) + 2 := by ring
      rw [this]; exact dvd_add h1 (dvd_refl 2)
    rw [e, show i + 1 + 2 = (i + 2) + 1 by omega, pow_succ]
    exact mul_dvd_mul ih h2

/-- An odd factor cancels in a divisibility by `2 ^ 32`. -/
theorem dvd_of_odd_mul (w z : Int) (hw : w % 2 = 1) (h : (2 : Int) ^ 32 ∣ w * z) :
    (2 : Int) ^ 32 ∣ z := by
  have hc : IsCoprime (2 : Int) w := ⟨-(w / 2), 1, by omega⟩
  have hc' : IsCoprime ((2 : Int) ^ 32) w := hc.pow_left
  rw [mul_comm] at h
  exact hc'.dvd_of_dvd_mul_right h

theorem exists_flip (P : Nat → Prop) : ∀ n : Nat, ¬ P 0 → P n → ∃ i, i < n ∧ ¬ P i ∧ P (i + 1) := by
  intro n
  induction n with
  | zero => intro h0 hn; exact absurd hn h0
  | succ n ih =>
    intro h0 hn
    by_cases c : P n
    · obtain ⟨i, h1, h2, h3⟩ := ih h0 c
      exact ⟨i, by omega, h2, h3⟩
    · exact ⟨n, by omega, c, hn⟩

theorem half_turn_core (A e0 : Int) (h4 : (4 : Int) ∣ A - 1)
    (hn : ¬ ((2 : Int) ^ 32 ∣ (A - 1) * e0)) (hp : (2 : Int) ^ 32 ∣ (A ^ 2 - 1) * e0) :
    (2 : Int) ^ 32 ∣ A * e0 - (e0 + 2 ^ 31) := by
  obtain ⟨m, hm⟩ := h4
  have hA : A = 4 * m + 1 := by linarith
  have hw : (A ^ 2 - 1) * e0 = (2 * m + 1) * (2 * ((A - 1) * e0)) := by
    rw [hA]; ring
  rw [hw] at hp
  have h5 := dvd_of_odd_mul (2 * m + 1) _ (by omega) hp
  have hg : A * e0 - (e0 + 2 ^ 31) = (A - 1) * e0 - 2 ^ 31 := by ring
  rw [hg]
  generalize (A - 1) * e0 = E at hn h5 ⊢
  norm_num at hn h5 ⊢
  omega

/-- Some power of the multiplier moves a small non-zero difference by exactly `2 ^ 31`. -/
theorem exists_half_turn (e0 : Int) (h0 : e0 ≠ 0) (h1 : -(2 ^ 16) < e0) (h2 : e0 < 2 ^ 16) :
    ∃ j : Nat, (2 : Int) ^ 32 ∣ (69069 : Int) ^ j * e0 - (e0 + 2 ^ 31) := by
  have hP0 : ¬ ((2 : Int) ^ 32 ∣ ((69069 : Int) ^ (2 ^ 0) - 1) * e0) := by
    norm_num at h1 h2 ⊢
    omega
  have hP30 : (2 : Int) ^ 32 ∣ ((69069 : Int) ^ (2 ^ 30) - 1) * e0 :=
    dvd_mul_of_dvd_left (pow_two_pow_sub_one 30) e0
  obtain ⟨i, _, hn, hp⟩ :=
    exists_flip (fun i => (2 : Int) ^ 32 ∣ ((69069 : Int) ^ (2 ^ i) - 1) * e0) 30 hP0 hP30
  have hA : (69069 : Int) ^ (2 ^ (i + 1)) = ((69069 : Int) ^ (2 ^ i)) ^ 2 := by
    rw [pow_succ 2 i, pow_mul]
  have h42 : (4 : Int) ∣ (2 : Int) ^ (i + 2) :=
    Dvd.intro_left ((2 : Int) ^ i) (by rw [pow_add]; norm_num)
  have h4 : (4 : Int) ∣ (69069 : Int) ^ (2 ^ i) - 1 := dvd_trans h42 (pow_two_pow_sub_one i)
  have hp' : (2 : Int) ^ 32 ∣ (((69069 : Int) ^ (2 ^ i)) ^ 2 - 1) * e0 := by
    rw [← hA]; exact hp
  exact ⟨2 ^ i, half_turn_core _ e0 h4 hn hp'⟩

/-- The difference of two state sequences is multiplied by 69069 at every step. -/
theorem diff_after (g h : WiiPlayRandomFloat) (n : Nat) : ∀ j : Nat,
    (2 : Int) ^ 32 ∣ (((g.after (n + j)).seed_ : Int) - ((h.after (n + j)).seed_ : Int)) -
      (69069 : Int) ^ j * (((g.after n).seed_ : Int) - ((h.after n).seed_ : Int)) := by
  intro j
  induction j with
  | zero => simp
  | succ j ih =>
    have hx : (2 : Int) ^ 32 ∣ ((g.after (n + (j + 1))).seed_ : Int) -
        (((g.after (n + j)).seed_ : Int) * 69069 + 1) := by
      rw [show n + (j + 1) = (n + j) + 1 by omega, after_succ]
      push_cast
      exact (Int.mod_modEq _ _).symm.dvd
    have hy : (2 : Int) ^ 32 ∣ ((h.after (n + (j + 1))).seed_ : Int) -
        (((h.after (n + j)).seed_ : Int) * 69069 + 1) := by
      rw [show n + (j + 1) = (n + j) + 1 by omega, after_succ]
      push_cast
      exact (Int.mod_modEq _ _).symm.dvd
    have h3 := dvd_add (dvd_sub hx hy) (Dvd.dvd.mul_left ih 69069)
    have e : ((g.after (n + (j + 1))).seed_ : Int) - ((h.after (n + (j + 1))).seed_ : Int) -
        (69069 : Int) ^ (j + 1) * (((g.after n).seed_ : Int) - ((h.after n).seed_ : Int)) =
        (((g.after (n + (j + 1))).seed_ : Int) - (((g.after (n + j)).seed_ : Int) * 69069 + 1) -
          (((h.after (n + (j + 1))).seed_ : Int) - (((h.after (n + j)).seed_ : Int) * 69069 + 1))) +
        69069 * ((((g.after (n + j)).seed_ : Int) - ((h.after (n + j)).seed_ : Int)) -
          (69069 : Int) ^ j * (((g.after n).seed_ : Int) - ((h.after n).seed_ : Int))) := by
      rw [pow_succ]; ring
    rw [e]
    exact h3

/-- Distinct states have, after some further steps, different upper halves. -/
theorem exists_upper_ne (x y : Int) (hx0 : 0 ≤ x) (hx : x < 2 ^ 32) (hy0 : 0 ≤ y)
    (hy : y < 2 ^ 32) (hne : x ≠ y) :
    ∃ j : Nat, ∀ u v : Int, 0 ≤ u → u < 2 ^ 32 → 0 ≤ v → v < 2 ^ 32 →
      (2 : Int) ^ 32 ∣ (u - v) - (69069 : Int) ^ j * (x - y) → u / 2 ^ 16 ≠ v / 2 ^ 16 := by
  by_cases hs : ∃ e0 : Int, -(2 ^ 16) < e0 ∧ e0 < 2 ^ 16 ∧ (2 : Int) ^ 32 ∣ (x - y) - e0
  · obtain ⟨e0, h1, h2, h3⟩ := hs
    have h0 : e0 ≠ 0 := by
      intro hz
      rw [hz] at h3
      norm_num at hx hy h3
      omega
    obtain ⟨j, hj⟩ := exists_half_turn e0 h0 h1 h2
    refine ⟨j, ?_⟩
    intro u v hu0 hu hv0 hv hd he
    have h4 := dvd_add (dvd_add hd (Dvd.dvd.mul_left h3 ((69069 : Int) ^ j))) hj
    have e : u - v - (69069 : Int) ^ j * (x - y) + (69069 : Int) ^ j * (x - y - e0) +
        ((69069 : Int) ^ j * e0 - (e0 + 2 ^ 31)) = u - v - e0 - 2 ^ 31 := by ring
    rw [e] at h4
    norm_num at hu hv h4 h1 h2 he
    omega
  · refine ⟨0, ?_⟩
    intro u v hu0 hu hv0 hv hd he
    rw [pow_zero, one_mul] at hd
    apply hs
    refine ⟨u - v, ?_, ?_, ?_⟩
    · norm_num at hu hv he ⊢; omega
    · norm_num at hu hv he ⊢; omega
    · have e : x - y - (u - v) = -(u - v - (x - y)) := by ring
      rw [e]
      exact (dvd_neg).2 hd

/-- The draw sequences of distinct seeds never merge: after any number of draws there
is a later draw on which they differ. -/
theorem draws_never_merge (s t : Nat) (h : s % 2 ^ 32 ≠ t % 2 ^ 32) (k0 : Nat) :
    ∃ k, k0 ≤ k ∧ (new s).draw k ≠ (new t).draw k := by
  have hne : (((new s).after (k0 + 1)).seed_ : Int) ≠ (((new t).after (k0 + 1)).seed_ : Int) :=
    fun e => h (after_inj s t (k0 + 1) (by exact_mod_cast e))
  have hx := after_lt s (k0 + 1)
  have hy := after_lt t (k0 + 1)
  obtain ⟨j, hj⟩ := exists_upper_ne _ _ (Int.natCast_nonneg _) (by exact_mod_cast hx)
    (Int.natCast_nonneg _) (by exact_mod_cast hy) hne
  have hu := after_lt s (k0 + 1 + j)
  have hv := after_lt t (k0 + 1 + j)
  have hd := hj _ _ (Int.natCast_nonneg _) (by exact_mod_cast hu) (Int.natCast_nonneg _)
    (by exact_mod_cast hv) (diff_after (new s) (new t) (k0 + 1) j)
  refine ⟨k0 + j + 1, by omega, ?_⟩
  apply draw_ne
  rw [bits16_eq_div, bits16_eq_div, show k0 + j + 1 = k0 + 1 + j by omega]
  intro e
  apply hd
  exact_mod_cast congrArg (fun n : Nat => (n : Int)) e

end WiiPlayRandomFloat

/-- C21: the state update `state -> (state * 69069 + 1) mod 2 ^ 32` is injective and onto
the 32-bit states (a permutation). Generators seeded with distinct 32-bit seeds have
distinct states after any equal number of draws, and their draw sequences never merge:
after any number of draws some later draw differs. -/
theorem C21_step_permutation :
    (∀ s t : Nat, s < 2 ^ 32 → t < 2 ^ 32 →
      (WiiPlayRandomFloat.mk s).random.1 = (WiiPlayRandomFloat.mk t).random.1 → s = t) ∧
    (∀ y : Nat, y < 2 ^ 32 →
      ∃ x : Nat, x < 2 ^ 32 ∧ (WiiPlayRandomFloat.mk x).random.1 = WiiPlayRandomFloat.mk y) ∧
    (∀ g : WiiPlayRandomFloat, g.random.1.seed_ = (g.seed_ * 69069 + 1) % 2 ^ 32) ∧
    (∀ s t k : Nat, s < 2 ^ 32 → t < 2 ^ 32 → s ≠ t →
      (WiiPlayRandomFloat.new s).after k ≠ (WiiPlayRandomFloat.new t).after k) ∧
    (∀ s t k0 : Nat, s < 2 ^ 32 → t < 2 ^ 32 → s ≠ t →
      ∃ k, k0 ≤ k ∧ (WiiPlayRandomFloat.new s).draw k ≠ (WiiPlayRandomFloat.new t).draw k) := by
  refine ⟨?_, ?_, fun _ => rfl, ?_, ?_⟩
  · intro s t hs ht h
    exact WiiPlayRandomFloat.step_inj s t hs ht (congrArg WiiPlayRandomFloat.seed_ h)
  · intro y hy
    refine ⟨(y + (2 ^ 32 - 1)) * 2783094533 % 2 ^ 32, Nat.mod_lt _ (by norm_num), ?_⟩
    exact congrArg WiiPlayRandomFloat.mk (WiiPlayRandomFloat.step_right_inv y hy)
  · intro s t k hs ht hne h
    have := WiiPlayRandomFloat.after_inj s t k (congrArg WiiPlayRandomFloat.seed_ h)
    rw [Nat.mod_eq_of_lt hs, Nat.mod_eq_of_lt ht] at this
    exact hne this
  · intro s t k0 hs ht hne
    apply WiiPlayRandomFloat.draws_never_merge
    rw [Nat.mod_eq_of_lt hs, Nat.mod_eq_of_lt ht]
    exact hne
